import Mathlib

/-!
# filesplitter: a shallow embedding of `pkg/filesplitter` and its verification

The Go package splits one file into part files.  `New` reads the options and
stats the source file, `Split` assigns one byte range to every worker, lets
every worker cut its range into blocks (`split`, `readNextBlock`,
`savePartialLocal`), merges the per-worker part lists, optionally re-reads the
parts (`verifySplit`) and writes the manifest (`GetManifest`, `writeManifest`).

Modelling decisions

* Bytes are natural numbers; no arithmetic is ever done on them.
* `int`/`int64` values that the code keeps non-negative (sizes, counters,
  indices) are `Nat`; the option fields `Workers` and `BlockSize`, which a
  caller may set to anything, are `Int`, and the statements about `New` take
  them in the range of a 64-bit integer (`IsInt64`).
* The three `make` calls of `New` allocate one machine word per worker; `New`
  does not return (`none`) when the runtime cannot make slices of that length
  (`makeSlice`, `Env.maxSliceLen`).
* The slices `byteCounter`, `blockFileIDs` and `fileHandlers` are functions of
  the worker index; only the indices below `workers` are ever used.
* The operating system is an explicit file system `FS` (state passing) plus an
  environment `Env` of outcomes for every call that may fail: opening the
  source, every `Read`, every part-file write, `ioutil.ReadAll`, writing the
  manifest.  `crypto/md5` and `encoding/json` are fields of `Env` as well.
  The environment is free to deliver outcomes a real system would not (a short
  read without an error, say); the theorems hold for all of them.
* A path names a file up to leading `./` components and the slashes after
  them (`cleanPath`): `./a`, `.//a` and `a` are the same file, `/a` and `out/a`
  are other ones.  Nothing else is resolved: paths that differ in another way
  (`out/../a` and `a`) are kept apart as different files, so the file system
  is one without links and the statements that compare paths (the round trip
  in the current directory) are about paths written the same way.
* An open read handle keeps the bytes the file had when it was opened.
* The goroutines started by `Split` touch disjoint indices of the slices and
  write files of different names; they are run one after the other in
  ascending worker index.
* The unbounded loop of `split` takes a fuel argument; `none` stands for
  "no normal return" (fuel exhausted, or the division by zero of `Split`
  when `workers` is 0).
* The struct `part` has no field for the bytes of a part.  The loop of `split`
  therefore returns, beside the part list, the byte slice it handed to
  `savePartialLocal` for every part it appended (`blocks`); the contents of a
  part are the contents of its part file in the file system `Split` leaves
  behind (`readParts`), and the slices are what the statements compare them
  with.
-/

set_option autoImplicit false

namespace Filesplitter

/-! ## Data model -/

/-- One byte of file content. -/
abbrev Byte := Nat

/-- The struct `part` of splitter.go. -/
structure part where
  order : Nat
  fileName : String
  hash : String
deriving DecidableEq, Repr

/-- An `*os.File` opened for reading: the bytes of the file, the read offset
and the number of `Read` calls made so far on it. -/
structure Handle where
  data : List Byte
  pos : Nat
  reads : Nat
deriving DecidableEq, Repr

/-- The struct `FileSplit` of splitter.go. -/
structure FileSplit where
  splitFolder : String
  fileName : String
  workers : Nat
  size : Nat
  blockSize : Nat
  hash : String
  byteCounter : Nat → Nat
  blockFileIDs : Nat → Nat
  fileHandlers : Nat → Option Handle
  parts : List part

/-- The struct `NewFileSplit` of splitter.go.  `Workers` is an `int` and `BlockSize` an
`int64`: the values of these fields are the integers of which `IsInt64` holds. -/
structure NewFileSplit where
  FileName : String
  Workers : Int
  BlockSize : Int
  SkipCheckDigest : Bool
  SplitFolder : String
deriving DecidableEq, Repr

/-- The struct `ManifestPart` of manifest.go. -/
structure ManifestPart where
  Hash : String
  FileName : String
  Order : Nat
deriving DecidableEq, Repr

/-- The struct `Manifest` of manifest.go. -/
structure Manifest where
  OriginalFileName : String
  OriginalFileHash : String
  BlockSize : Nat
  Parts : List ManifestPart
deriving DecidableEq, Repr

/-! ## The environment -/

/-- What one `Read` call on the source delivers: at most `n` bytes, and the
error it returns. -/
structure ReadOutcome where
  n : Nat
  err : Option String
deriving DecidableEq, Repr

/-- What creating and writing one part file does: `os.OpenFile` fails, or
`Write` stores at most `n` bytes and returns `err`. -/
inductive WriteOutcome where
  | openFail (msg : String)
  | wrote (n : Nat) (err : Option String)
deriving DecidableEq, Repr

/-- Everything outside the package: the digest (`md5.Sum` printed with `%x`),
the JSON encoder, and the outcome of every system call that can fail. -/
structure Env where
  /-- The hex text of `md5.Sum`. -/
  digest : List Byte → String
  /-- The bytes `json.MarshalIndent` produces. -/
  marshal : Manifest → List Byte
  /-- The error of `os.Open` on the source, for the handle of worker `w`. -/
  openErr : Nat → Option String
  /-- The outcome of `Read` call number `k` of worker `w` asking for `len` bytes. -/
  read : Nat → Nat → Nat → ReadOutcome
  /-- The outcome of writing block `b` of worker `w`. -/
  write : Nat → Nat → WriteOutcome
  /-- The error of `ioutil.ReadAll` on an existing file. -/
  readAllErr : String → Option String
  /-- The error of `ioutil.WriteFile` on the manifest. -/
  manifestErr : Option String
  /-- The greatest length of a slice of machine words the runtime can still allocate. -/
  maxSliceLen : Nat

/-- The file system: the most recent entry of a path wins. -/
abbrev FS := List (String × List Byte)

/-- Leading `./` components, and the slashes that follow one, do not change which file
a relative path names; `seen` says that such a component has just been dropped. -/
def stripDotSlash : Bool → List Char → List Char
  | seen, c :: d :: rest =>
    if seen = true ∧ c = '/' then stripDotSlash true (d :: rest)
    else if c = '.' ∧ d = '/' then stripDotSlash true rest
    else c :: d :: rest
  | seen, [c] => if seen = true ∧ c = '/' then [] else [c]
  | _, [] => []

/-- The key under which the file system stores a path.  Two paths with the same key name
the same file; paths with different keys are kept apart, so `..`, slashes inside a path and
links are not resolved. -/
def cleanPath (path : String) : String := String.mk (stripDotSlash false path.data)

/-- The content of the file at `path`, if it exists. -/
def readFile : FS → String → Option (List Byte)
  | [], _ => none
  | (k, v) :: rest, path => if k = cleanPath path then some v else readFile rest path

/-- Create or truncate the file at `path` and store `content`. -/
def writeFile (fs : FS) (path : String) (content : List Byte) : FS :=
  (cleanPath path, content) :: fs

/-- The text of `strconv.Itoa`: base 10, a leading minus for negatives. -/
def Itoa (n : Int) : String :=
  match n with
  | Int.ofNat m => Nat.repr m
  | Int.negSucc m => "-" ++ Nat.repr (m + 1)

/-- The method `Read` of `*os.File`: fills a prefix of the buffer of length `len`, moves
the offset by the number of bytes delivered, and reports end of file when a
non-empty buffer is requested with nothing left. -/
def Handle.Read (h : Handle) (o : ReadOutcome) (len : Nat) :
    Handle × List Byte × Nat × Option String :=
  let avail := h.data.length - h.pos
  let n := min o.n (min len avail)
  let err := if 0 < len ∧ avail = 0 ∧ o.err = none then some "EOF" else o.err
  ({ h with pos := h.pos + n, reads := h.reads + 1 },
    (h.data.drop h.pos).take n ++ List.replicate (len - n) 0, n, err)

/-! ## splitter.go -/

/-- The function `digest`. -/
def digest (env : Env) (bytes : List Byte) : String := env.digest bytes

/-- The function `readAll`: open the file, read it to the end. -/
def readAll (env : Env) (fs : FS) (fileName : String) : List Byte × Option String :=
  match readFile fs fileName with
  | none => ([], some ("open " ++ fileName ++ ": no such file or directory"))
  | some data =>
    match env.readAllErr fileName with
    | some e => ([], some e)
    | none => (data, none)

/-- The function `checkDigest`. -/
def checkDigest (env : Env) (fs : FS) (fileName : String) : String × Option String :=
  match readAll env fs fileName with
  | (_, some e) => ("", some e)
  | (content, none) => (digest env content, none)

/-- The values of the Go types `int` and `int64` on a 64-bit platform. -/
def IsInt64 (n : Int) : Prop := -9223372036854775808 ≤ n ∧ n ≤ 9223372036854775807

/-- The built-in `make` for a slice of `len` machine words (`[]*os.File`, `[]int64`, `[]int`):
whether it returns.  It panics with `makeslice: len out of range` when `len` words exceed the
address space of 2^48 bytes, and the program dies when the memory is not there. -/
def makeSlice (env : Env) (len : Nat) : Bool :=
  decide (len * 8 ≤ 281474976710656 ∧ len ≤ env.maxSliceLen)

/-- The function `New`; `none` when it does not return.  `os.Stat` fails exactly when the
file system has no such file; the three per-worker slices are made after it and before the
digest is computed. -/
def New (env : Env) (fs : FS) (options : NewFileSplit) : Option (Except String FileSplit) :=
  let fileName := options.FileName
  let workers := if options.Workers > 1 then options.Workers.toNat else 1
  let blockSize := if options.BlockSize > 1 then options.BlockSize.toNat else 1024 * 512
  let splitFolder := if options.SplitFolder ≠ "" then options.SplitFolder else "./"
  match readFile fs fileName with
  | none => some (.error ("file " ++ fileName ++ " not found"))
  | some content =>
    if makeSlice env workers = false then none
    else
      let fsplit : FileSplit :=
        { splitFolder := splitFolder, fileName := fileName, workers := workers,
          size := content.length, blockSize := blockSize, hash := "",
          byteCounter := fun _ => 0, blockFileIDs := fun _ => 0,
          fileHandlers := fun _ => none, parts := [] }
      if ¬ options.SkipCheckDigest then
        match checkDigest env fs fileName with
        | (_, some e) => some (.error e)
        | (hash, none) => some (.ok { fsplit with hash := hash })
      else some (.ok fsplit)

/-- The function `openFile`; `o` is the error `os.Open` returns for a file that exists. -/
def openFile (o : Option String) (fs : FS) (fileName : String) : Except String Handle :=
  match readFile fs fileName with
  | none => .error ("open " ++ fileName ++ ": no such file or directory")
  | some data =>
    match o with
    | some e => .error e
    | none => .ok { data := data, pos := 0, reads := 0 }

/-- The method `setOffset`: `Seek` from the beginning of the file. -/
def setOffset (fsplit : FileSplit) (workerId : Nat) (offset : Nat) : FileSplit × Option String :=
  match fsplit.fileHandlers workerId with
  | none => (fsplit, some "invalid argument")
  | some h =>
    ({ fsplit with
        fileHandlers := Function.update fsplit.fileHandlers workerId (some { h with pos := offset }) },
      none)

/-- The method `readNextBlock`. -/
def readNextBlock (env : Env) (fsplit : FileSplit) (workerId : Nat) :
    FileSplit × List Byte × Nat × Option String :=
  let len :=
    if fsplit.byteCounter workerId > fsplit.blockSize then fsplit.blockSize
    else fsplit.byteCounter workerId
  let fsplit1 : FileSplit :=
    { fsplit with
      byteCounter := Function.update fsplit.byteCounter workerId (fsplit.byteCounter workerId - len) }
  match fsplit1.fileHandlers workerId with
  | none =>
    (fsplit1, List.replicate len 0, 0,
      if fsplit1.byteCounter workerId = 0 then some "EOP" else some "invalid argument")
  | some h =>
    match h.Read (env.read workerId h.reads len) len with
    | (h1, byteSlice, readBytes, err) =>
      ({ fsplit1 with fileHandlers := Function.update fsplit1.fileHandlers workerId (some h1) },
        byteSlice, readBytes,
        if fsplit1.byteCounter workerId = 0 then some "EOP" else err)

/-- The name `savePartialLocal` gives the part file of block `blockId` of worker `workerId`. -/
def partFileName (fileName : String) (workerId blockId : Nat) (digest : String) : String :=
  fileName ++ "." ++ Itoa workerId ++ "." ++ Itoa blockId ++ "." ++ digest ++ ".part"

/-- The method `savePartialLocal`: returns the file system, the part file name, the
digest and the error. -/
def savePartialLocal (env : Env) (fsplit : FileSplit) (fs : FS) (workerId blockId : Nat)
    (content : List Byte) (nBytes : Nat) : FS × String × String × Option String :=
  let dig := digest env content
  let name := partFileName fsplit.fileName workerId blockId dig
  match env.write workerId blockId with
  | .openFail msg => (fs, "", "", some msg)
  | .wrote n err =>
    let bytesWritten := min n content.length
    let fs1 := writeFile fs (fsplit.splitFolder ++ name) (content.take bytesWritten)
    match err with
    | some e => (fs1, "", "", some e)
    | none =>
      if bytesWritten ≠ nBytes then
        (fs1, "", "", some ("not all bytes was saved for " ++ name))
      else (fs1, name, dig, none)

/-- The statement `fsplit.blockFileIDs[processId]++` of `split`. -/
def incBlockFileID (fsplit : FileSplit) (processId : Nat) : FileSplit :=
  { fsplit with
    blockFileIDs :=
      Function.update fsplit.blockFileIDs processId (fsplit.blockFileIDs processId + 1) }

/-- The loop of the method `split`.  Beside the worker part list it collects
the byte slice of every part it appends (`blocks`), which the code hands to
`savePartialLocal` and then drops. -/
def splitLoop (env : Env) (processId : Nat) :
    Nat → FileSplit → FS → List part → List (List Byte) →
      Option (FileSplit × FS × List part × List (List Byte))
  | 0, _, _, _, _ => none
  | fuel + 1, fsplit, fs, workerPartList, blocks =>
    match readNextBlock env fsplit processId with
    | (fsplit1, byteSlice, nBytes, err) =>
      if err ≠ none ∧ err ≠ some "EOP" then some (fsplit1, fs, workerPartList, blocks)
      else
        let fsplit2 := incBlockFileID fsplit1 processId
        match savePartialLocal env fsplit2 fs processId (fsplit2.blockFileIDs processId)
            byteSlice nBytes with
        | (fs1, name, hash, _) =>
          let workerPartList1 := workerPartList ++ [{ order := 0, fileName := name, hash := hash }]
          if err = some "EOP" then some (fsplit2, fs1, workerPartList1, blocks ++ [byteSlice])
          else splitLoop env processId fuel fsplit2 fs1 workerPartList1 (blocks ++ [byteSlice])

/-- The method `split`: the worker part list starts empty. -/
def split (env : Env) (fuel : Nat) (fsplit : FileSplit) (fs : FS) (processId : Nat) :
    Option (FileSplit × FS × List part × List (List Byte)) :=
  splitLoop env processId fuel fsplit fs [] []

/-- The method `verifySplit`, its loop over `fsplit.parts` with the content read so far. -/
def verifyLoop (env : Env) (fsplit : FileSplit) (fs : FS) : List part → List Byte → Option String
  | [], content =>
    if fsplit.hash ≠ digest env content then some "split verification failed" else none
  | p :: rest, content =>
    match readAll env fs p.fileName with
    | (_, some e) => some e
    | (bytes, none) => verifyLoop env fsplit fs rest (content ++ bytes)

/-- The method `verifySplit`. -/
def verifySplit (env : Env) (fsplit : FileSplit) (fs : FS) : Option String :=
  verifyLoop env fsplit fs fsplit.parts []

/-! ## manifest.go -/

/-- The method `GetManifest`. -/
def GetManifest (fsplit : FileSplit) : Manifest :=
  { OriginalFileName := fsplit.fileName
    OriginalFileHash := fsplit.hash
    BlockSize := fsplit.blockSize
    Parts := fsplit.parts.map fun p => { Hash := p.hash, FileName := p.fileName, Order := p.order } }

/-- The name of the manifest file. -/
def manifestFileName (env : Env) (fsplit : FileSplit) : String :=
  fsplit.splitFolder ++ fsplit.fileName ++ "." ++ digest env (env.marshal (GetManifest fsplit)) ++
    ".manifest.json"

/-- The method `writeManifest`; encoding this struct as JSON cannot fail. -/
def writeManifest (env : Env) (fsplit : FileSplit) (fs : FS) : FS × Option String :=
  let jsonContent := env.marshal (GetManifest fsplit)
  match env.manifestErr with
  | some e => (fs, some e)
  | none => (writeFile fs (manifestFileName env fsplit) jsonContent, none)

/-! ## `Split` -/

/-- The first loop of `Split`: with `n` workers still to set up, open a handle for
`workerId`, seek it to `pos` and give the worker `bytesPerWorkesSection` bytes. -/
def openLoop (env : Env) (fs : FS) (bytesPerWorkesSection : Nat) :
    Nat → Nat → Nat → FileSplit → FileSplit × Option String
  | 0, _, _, fsplit => (fsplit, none)
  | n + 1, workerId, pos, fsplit =>
    match openFile (env.openErr workerId) fs fsplit.fileName with
    | .error e => (fsplit, some e)
    | .ok fh =>
      let fsplit1 : FileSplit :=
        { fsplit with fileHandlers := Function.update fsplit.fileHandlers workerId (some fh) }
      let fsplit2 := (setOffset fsplit1 workerId pos).1
      let fsplit3 : FileSplit :=
        { fsplit2 with
          byteCounter := Function.update fsplit2.byteCounter workerId bytesPerWorkesSection }
      openLoop env fs bytesPerWorkesSection n (workerId + 1) (pos + bytesPerWorkesSection) fsplit3

/-- The ranges of `Split`: the first loop, then the remainder added to the last worker. -/
def assignRanges (env : Env) (fs : FS) (fsplit : FileSplit) : FileSplit × Option String :=
  let workers := fsplit.workers
  let bytesPerWorkesSection := fsplit.size / workers
  match openLoop env fs bytesPerWorkesSection workers 0 0 fsplit with
  | (fsplit1, some e) => (fsplit1, some e)
  | (fsplit1, none) =>
    ({ fsplit1 with
        byteCounter :=
          Function.update fsplit1.byteCounter (workers - 1)
            (fsplit1.byteCounter (workers - 1) + fsplit.size % workers) },
      none)

/-- The goroutines of `Split`, `n` of them still to run, starting with `workedId`;
returns `localParts` and, per worker, the byte slices of its parts. -/
def runWorkers (env : Env) (fuel : Nat) :
    Nat → Nat → FileSplit → FS →
      Option (FileSplit × FS × List (List part) × List (List (List Byte)))
  | 0, _, fsplit, fs => some (fsplit, fs, [], [])
  | n + 1, workedId, fsplit, fs =>
    match split env fuel fsplit fs workedId with
    | none => none
    | some (fsplit1, fs1, workerPartList, blocks) =>
      match runWorkers env fuel n (workedId + 1) fsplit1 fs1 with
      | none => none
      | some (fsplit2, fs2, localParts, localBlocks) =>
        some (fsplit2, fs2, workerPartList :: localParts, blocks :: localBlocks)

/-- The inner loop of the merge: append the parts of one worker, numbering them. -/
def mergeWorker : List part → Nat → List part → List part × Nat
  | [], order, parts => (parts, order)
  | p :: rest, order, parts => mergeWorker rest (order + 1) (parts ++ [{ p with order := order }])

/-- The outer loop of the merge, over the workers in ascending index. -/
def mergeLoop : List (List part) → Nat → List part → List part
  | [], _, parts => parts
  | l :: ls, order, parts =>
    match mergeWorker l order parts with
    | (parts1, order1) => mergeLoop ls order1 parts1

/-- What a call of `Split` leaves behind: the receiver, the file system, the
returned error, and the byte slices of the parts it appended, in part order. -/
structure SplitOutcome where
  fsplit : FileSplit
  fs : FS
  err : Option String
  blocks : List (List Byte)

/-- The method `Split`. -/
def Split (env : Env) (fuel : Nat) (fsplit : FileSplit) (fs : FS) : Option SplitOutcome :=
  if fsplit.workers = 0 then none
  else
    match assignRanges env fs fsplit with
    | (fsplit1, some e) => some { fsplit := fsplit1, fs := fs, err := some e, blocks := [] }
    | (fsplit1, none) =>
      match runWorkers env fuel fsplit.workers 0 fsplit1 fs with
      | none => none
      | some (fsplit2, fs1, localParts, localBlocks) =>
        let fsplit3 : FileSplit := { fsplit2 with parts := mergeLoop localParts 0 fsplit2.parts }
        if fsplit3.hash ≠ "" then
          match verifySplit env fsplit3 fs1 with
          | some e => some { fsplit := fsplit3, fs := fs1, err := some e, blocks := localBlocks.flatten }
          | none =>
            some { fsplit := fsplit3, fs := (writeManifest env fsplit3 fs1).1, err := none,
                   blocks := localBlocks.flatten }
        else
          some { fsplit := fsplit3, fs := (writeManifest env fsplit3 fs1).1, err := none,
                 blocks := localBlocks.flatten }

/-! ## A concrete environment -/

/-- A stand-in digest for evaluating the model: the decimal text of the byte sum
and the length. -/
def sumDigest (bs : List Byte) : String := Nat.repr bs.sum ++ "x" ++ Nat.repr bs.length

/-- A stand-in encoder for evaluating the model: one byte per part. -/
def orderBytes (m : Manifest) : List Byte := m.Parts.map fun p => p.Order

/-- The environment in which every call succeeds in full. -/
def idealEnv : Env :=
  { digest := sumDigest
    marshal := orderBytes
    openErr := fun _ => none
    read := fun _ _ len => { n := len, err := none }
    write := fun _ _ => .wrote 1000000000 none
    readAllErr := fun _ => none
    manifestErr := none
    maxSliceLen := 1000000 }

/-- A source file of five bytes, alone in the file system. -/
def demoFS : FS := [("a", [1, 2, 3, 4, 5])]

/-- A freshly constructed `FileSplit` for `demoFS`: two workers, blocks of two
bytes, no stored digest. -/
def demoSplit : FileSplit :=
  { splitFolder := "./", fileName := "a", workers := 2, size := 5, blockSize := 2, hash := "",
    byteCounter := fun _ => 0, blockFileIDs := fun _ => 0, fileHandlers := fun _ => none,
    parts := [] }

/-- A source of 1,000,000 bytes. -/
def scenarioSource : List Byte := List.replicate 1000000 0

/-- The scenario of a source of 1,000,000 bytes. -/
def scenarioFS : FS := [("big", scenarioSource)]

/-- The scenario of a source of 1,000,000 bytes, blocks of 300,000 bytes and 3 workers. -/
def scenarioSplit : FileSplit :=
  { splitFolder := "./", fileName := "big", workers := 3, size := 1000000, blockSize := 300000,
    hash := "", byteCounter := fun _ => 0, blockFileIDs := fun _ => 0,
    fileHandlers := fun _ => none, parts := [] }

/-- An environment whose every `Read` of the source fails with an I/O error. -/
def brokenReadEnv : Env :=
  { idealEnv with read := fun _ _ _ => { n := 0, err := some "input/output error" } }

/-- A worker state in the middle of `Split` on `demoFS`: worker 0 has an open handle
and `c` bytes left. -/
def midSplit (c : Nat) : FileSplit :=
  { demoSplit with
    workers := 1
    byteCounter := fun _ => c
    fileHandlers := fun _ => some { data := [1, 2, 3, 4, 5], pos := 0, reads := 0 } }

/-- A source file of zero bytes. -/
def zeroFS : FS := [("empty", [])]

/-- A freshly constructed `FileSplit` for `zeroFS`: three workers, no stored digest. -/
def zeroSplit : FileSplit :=
  { splitFolder := "./", fileName := "empty", workers := 3, size := 0, blockSize := 2, hash := "",
    byteCounter := fun _ => 0, blockFileIDs := fun _ => 0, fileHandlers := fun _ => none,
    parts := [] }

/-- An environment in which no part file can be created. -/
def brokenWriteEnv : Env :=
  { idealEnv with write := fun _ _ => .openFail "permission denied" }

/-- Options for `demoFS`: one worker, blocks of two bytes, integrity checking skipped. -/
def skipOptions : NewFileSplit :=
  { FileName := "a", Workers := 1, BlockSize := 2, SkipCheckDigest := true, SplitFolder := "" }

/-- Options for `demoFS`: two workers, blocks of two bytes, integrity checking enabled,
parts written to the folder `out/`. -/
def outFolderOptions : NewFileSplit :=
  { FileName := "a", Workers := 2, BlockSize := 2, SkipCheckDigest := false,
    SplitFolder := "out/" }

/-- Options for `demoFS` with a worker count of zero and a negative block size. -/
def badOptions : NewFileSplit :=
  { FileName := "a", Workers := 0, BlockSize := -5, SkipCheckDigest := false, SplitFolder := "" }

/-- An environment in which the source cannot be opened for reading. -/
def brokenOpenEnv : Env :=
  { idealEnv with openErr := fun _ => some "permission denied" }

/-- The call of `New` followed by `Split` on the state it returns: the error of `New`, or what
`Split` leaves behind (`none` when one of the two does not return). -/
def NewThenSplit (env : Env) (fuel : Nat) (fs : FS) (options : NewFileSplit) :
    Except String (Option SplitOutcome) :=
  match New env fs options with
  | none => .ok none
  | some (.error e) => .error e
  | some (.ok fsplit) => .ok (Split env fuel fsplit fs)

/-! ## Vocabulary of the statements -/

/-- The number of blocks of a range of `L` bytes cut into blocks of `B` bytes: `L / B` rounded up. -/
def blockCount (L B : Nat) : Nat := (L + B - 1) / B

/-- The lengths of the blocks a worker requests for a range of `L` bytes: full
blocks of `B` bytes, then what is left. -/
def chunkLens (L B : Nat) : List Nat :=
  List.replicate (blockCount L B - 1) B ++ [L - (blockCount L B - 1) * B]

/-- The bytes of the range of worker `w`: from the offset of its handle, as many
as its byte counter says. -/
def rangeBytes (fsplit : FileSplit) (w : Nat) : List Byte :=
  match fsplit.fileHandlers w with
  | none => []
  | some h => (h.data.drop h.pos).take (fsplit.byteCounter w)

/-- The offset at which the range of worker `w` starts. -/
def rangeStart (fsplit : FileSplit) (w : Nat) : Nat :=
  match fsplit.fileHandlers w with
  | none => 0
  | some h => h.pos

/-- State `g` differs from `f` at most in the entries of worker `w` of the
three per-worker slices. -/
def SameExcept (w : Nat) (f g : FileSplit) : Prop :=
  g.splitFolder = f.splitFolder ∧ g.fileName = f.fileName ∧ g.workers = f.workers ∧
    g.size = f.size ∧ g.blockSize = f.blockSize ∧ g.hash = f.hash ∧ g.parts = f.parts ∧
    ∀ v, v ≠ w →
      g.byteCounter v = f.byteCounter v ∧ g.blockFileIDs v = f.blockFileIDs v ∧
        g.fileHandlers v = f.fileHandlers v

/-- State `g` agrees with `f` on every field but the entries of the workers
`lo ≤ v < hi` of the three per-worker slices. -/
def SameOutside (lo hi : Nat) (f g : FileSplit) : Prop :=
  g.splitFolder = f.splitFolder ∧ g.fileName = f.fileName ∧ g.workers = f.workers ∧
    g.size = f.size ∧ g.blockSize = f.blockSize ∧ g.hash = f.hash ∧ g.parts = f.parts ∧
    ∀ v, v < lo ∨ hi ≤ v →
      g.byteCounter v = f.byteCounter v ∧ g.blockFileIDs v = f.blockFileIDs v ∧
        g.fileHandlers v = f.fileHandlers v

/-- The part entries `ps` with the order fields `order`, `order + 1`, ... -/
def numbered (order : Nat) (ps : List part) : List part :=
  (ps.enumFrom order).map fun ip => { ip.2 with order := ip.1 }

/-- No `Read` of worker `w` for a block that is not the last of its range of
`L` bytes returns an error; `start` is the number of reads made before. -/
def NoMidReadError (env : Env) (w start L B : Nat) : Prop :=
  ∀ k, (k + 1) * B < L → (env.read w (start + k) B).err = none

/-- Every `Read` of worker `w` fills the requested block and returns no error. -/
def FullReads (env : Env) (w : Nat) : Prop :=
  ∀ k len, len ≤ (env.read w k len).n ∧ (env.read w k len).err = none

/-- Every write of a part file stores the whole block (of at most `B` bytes) and
returns no error. -/
def FullWrites (env : Env) (B : Nat) : Prop :=
  ∀ w b, ∃ n, B ≤ n ∧ env.write w b = .wrote n none

/-- The part entry `p` carries the digest of the byte slice `b`, the file system holds
`b` under the name `p.fileName` read from the folder `pre`, and that name is the
part file name of a block saved no later than block `id` of worker `w`. -/
def Stored (env : Env) (fileName pre : String) (fs : FS) (w id : Nat) (p : part)
    (b : List Byte) : Prop :=
  p.hash = env.digest b ∧ readFile fs (pre ++ p.fileName) = some b ∧
    ∃ w1 k1, p.fileName = partFileName fileName w1 k1 (env.digest b) ∧
      (w1 < w ∨ (w1 = w ∧ k1 ≤ id))

/-- The part entries `ps` taken in ascending order field. -/
def byOrder (ps : List part) : List part :=
  ps.insertionSort (fun p q => p.order ≤ q.order)

/-- The contents of the part files of `ps`, each read from `folder` under the recorded name,
concatenated in list order; `none` when one of them is not there. -/
def readParts (fs : FS) (folder : String) : List part → Option (List Byte)
  | [] => some []
  | p :: rest =>
    match readFile fs (folder ++ p.fileName), readParts fs folder rest with
    | some b, some bs => some (b ++ bs)
    | _, _ => none

/-- A part entry `p` was recorded for the byte slice `b`: it carries the digest
of `b` and a part file name built from it, or both are empty because saving failed. -/
def RecordOf (env : Env) (fileName : String) (p : part) (b : List Byte) : Prop :=
  (p.fileName = "" ∧ p.hash = "") ∨
    (p.hash = env.digest b ∧ ∃ w k, p.fileName = partFileName fileName w k (env.digest b))

/-! ## Block arithmetic -/

theorem blockCount_le {L B : Nat} (hB : 0 < B) (h : L ≤ B) : blockCount L B - 1 = 0 := by
  unfold blockCount
  have : (L + B - 1) / B ≤ 1 := by
    have : (L + B - 1) / B < 2 := by
      rw [Nat.div_lt_iff_lt_mul hB]; omega
    omega
  omega

theorem blockCount_gt {L B : Nat} (hB : 0 < B) (h : B < L) :
    blockCount L B = blockCount (L - B) B + 1 := by
  unfold blockCount
  have : L + B - 1 = (L - B + B - 1) + B := by omega
  rw [this, Nat.add_div_right _ hB]

theorem blockCount_pos {L B : Nat} (hB : 0 < B) (h : 0 < L) : 0 < blockCount L B := by
  unfold blockCount
  apply Nat.div_pos <;> omega

theorem chunkLens_le {L B : Nat} (hB : 0 < B) (h : L ≤ B) : chunkLens L B = [L] := by
  simp [chunkLens, blockCount_le hB h]

theorem chunkLens_gt {L B : Nat} (hB : 0 < B) (h : B < L) :
    chunkLens L B = B :: chunkLens (L - B) B := by
  have hp : 0 < blockCount (L - B) B := blockCount_pos hB (by omega)
  obtain ⟨m, hm⟩ : ∃ m, blockCount (L - B) B = m + 1 := ⟨blockCount (L - B) B - 1, by omega⟩
  simp only [chunkLens, blockCount_gt hB h, hm, Nat.add_sub_cancel, List.replicate_succ,
    List.cons_append, Nat.add_mul, one_mul]
  rw [Nat.sub_sub, Nat.add_comm B]

theorem readNextBlock_some (env : Env) (f : FileSplit) (w : Nat) (h : Handle)
    (hh : f.fileHandlers w = some h) :
    readNextBlock env f w =
      ({ f with
          byteCounter := Function.update f.byteCounter w
            (f.byteCounter w - min f.blockSize (f.byteCounter w))
          fileHandlers := Function.update f.fileHandlers w
            (some (h.Read (env.read w h.reads (min f.blockSize (f.byteCounter w)))
              (min f.blockSize (f.byteCounter w))).1) },
        (h.Read (env.read w h.reads (min f.blockSize (f.byteCounter w)))
              (min f.blockSize (f.byteCounter w))).2.1,
        (h.Read (env.read w h.reads (min f.blockSize (f.byteCounter w)))
              (min f.blockSize (f.byteCounter w))).2.2.1,
        if f.byteCounter w - min f.blockSize (f.byteCounter w) = 0 then some "EOP"
        else (h.Read (env.read w h.reads (min f.blockSize (f.byteCounter w)))
              (min f.blockSize (f.byteCounter w))).2.2.2) := by
  have hlen : (if f.byteCounter w > f.blockSize then f.blockSize else f.byteCounter w)
      = min f.blockSize (f.byteCounter w) := by
    split <;> omega
  simp only [readNextBlock, hlen, hh, Function.update_same]

/-! ## One step of a worker -/

theorem sameExcept_refl (w : Nat) (f : FileSplit) : SameExcept w f f := by
  simp [SameExcept]

theorem sameExcept_trans {w : Nat} {f g k : FileSplit} (h1 : SameExcept w f g)
    (h2 : SameExcept w g k) : SameExcept w f k := by
  obtain ⟨a1, a2, a3, a4, a5, a6, a7, a8⟩ := h1
  obtain ⟨b1, b2, b3, b4, b5, b6, b7, b8⟩ := h2
  refine ⟨b1.trans a1, b2.trans a2, b3.trans a3, b4.trans a4, b5.trans a5, b6.trans a6,
    b7.trans a7, ?_⟩
  intro v hv
  obtain ⟨c1, c2, c3⟩ := a8 v hv
  obtain ⟨d1, d2, d3⟩ := b8 v hv
  exact ⟨d1.trans c1, d2.trans c2, d3.trans c3⟩

theorem readNextBlock_sameExcept (env : Env) (f : FileSplit) (w : Nat) :
    SameExcept w f (readNextBlock env f w).1 := by
  unfold readNextBlock
  cases hh : f.fileHandlers w <;>
    simp +contextual [SameExcept, hh, Function.update_noteq]

theorem readNextBlock_counter (env : Env) (f : FileSplit) (w : Nat) :
    (readNextBlock env f w).1.byteCounter w = f.byteCounter w - min f.blockSize (f.byteCounter w) := by
  have hlen : (if f.byteCounter w > f.blockSize then f.blockSize else f.byteCounter w)
      = min f.blockSize (f.byteCounter w) := by
    split <;> omega
  unfold readNextBlock
  cases hh : f.fileHandlers w <;> simp [hh, hlen]

theorem readNextBlock_ids (env : Env) (f : FileSplit) (w : Nat) :
    (readNextBlock env f w).1.blockFileIDs = f.blockFileIDs := by
  unfold readNextBlock
  cases hh : f.fileHandlers w <;> simp [hh]

theorem readNextBlock_length (env : Env) (f : FileSplit) (w : Nat) :
    (readNextBlock env f w).2.1.length = min f.blockSize (f.byteCounter w) := by
  have hlen : (if f.byteCounter w > f.blockSize then f.blockSize else f.byteCounter w)
      = min f.blockSize (f.byteCounter w) := by
    split <;> omega
  unfold readNextBlock
  cases hh : f.fileHandlers w
  · simp [hh, hlen]
  · simp only [hh, hlen, Function.update_same, Handle.Read, List.length_append, List.length_take,
      List.length_drop, List.length_replicate]
    omega

theorem readNextBlock_err_last (env : Env) (f : FileSplit) (w : Nat)
    (hc : (readNextBlock env f w).1.byteCounter w = 0) :
    (readNextBlock env f w).2.2.2 = some "EOP" := by
  have hlen : (if f.byteCounter w > f.blockSize then f.blockSize else f.byteCounter w)
      = min f.blockSize (f.byteCounter w) := by
    split <;> omega
  rw [readNextBlock_counter] at hc
  unfold readNextBlock
  cases hh : f.fileHandlers w <;> simp [hh, hlen, hc]

theorem savePartialLocal_record (env : Env) (f : FileSplit) (fs : FS) (w b : Nat)
    (content : List Byte) (n : Nat) :
    RecordOf env f.fileName
      { order := 0, fileName := (savePartialLocal env f fs w b content n).2.1,
        hash := (savePartialLocal env f fs w b content n).2.2.1 } content := by
  unfold savePartialLocal RecordOf
  cases env.write w b with
  | openFail msg => simp
  | wrote k err =>
    cases err with
    | some e => simp
    | none =>
      by_cases hk : min k content.length = n
      · simp [hk, digest]
        right; exact ⟨w, b, rfl⟩
      · simp [hk]

theorem splitLoop_succ (env : Env) (w fuel : Nat) (f : FileSplit) (fs : FS) (ps : List part)
    (bs : List (List Byte)) (f1 : FileSplit) (buf : List Byte) (n : Nat) (err : Option String)
    (fs1 : FS) (name hash : String) (e : Option String)
    (hr : readNextBlock env f w = (f1, buf, n, err))
    (hs : savePartialLocal env (incBlockFileID f1 w) fs w ((incBlockFileID f1 w).blockFileIDs w)
      buf n = (fs1, name, hash, e)) :
    splitLoop env w (fuel + 1) f fs ps bs =
      if err ≠ none ∧ err ≠ some "EOP" then some (f1, fs, ps, bs)
      else if err = some "EOP" then
        some (incBlockFileID f1 w, fs1, ps ++ [{ order := 0, fileName := name, hash := hash }],
          bs ++ [buf])
      else
        splitLoop env w fuel (incBlockFileID f1 w) fs1
          (ps ++ [{ order := 0, fileName := name, hash := hash }]) (bs ++ [buf]) := by
  simp only [splitLoop, hr, hs]

theorem incBlockFileID_sameExcept (f : FileSplit) (w : Nat) :
    SameExcept w f (incBlockFileID f w) := by
  simp +contextual [SameExcept, incBlockFileID, Function.update_noteq]

theorem readNextBlock_handle (env : Env) (f : FileSplit) (w : Nat) (h : Handle)
    (hh : f.fileHandlers w = some h) :
    (readNextBlock env f w).1.fileHandlers w =
        some { data := h.data, pos := h.pos + (readNextBlock env f w).2.2.1, reads := h.reads + 1 } ∧
      (readNextBlock env f w).2.2.1 ≤ min f.blockSize (f.byteCounter w) := by
  rw [readNextBlock_some env f w h hh]
  simp only [Function.update_same, Handle.Read]
  refine ⟨trivial, ?_⟩
  omega

theorem readNextBlock_err_mid (env : Env) (f : FileSplit) (w : Nat) (h : Handle)
    (hh : f.fileHandlers w = some h) (hB : f.blockSize < f.byteCounter w)
    (hfit : h.pos + f.byteCounter w ≤ h.data.length)
    (herr : (env.read w h.reads f.blockSize).err = none) :
    (readNextBlock env f w).2.2.2 = none := by
  rw [readNextBlock_some env f w h hh]
  have hmin : min f.blockSize (f.byteCounter w) = f.blockSize := by omega
  have hne : f.byteCounter w - f.blockSize ≠ 0 := by omega
  have hav : h.data.length - h.pos ≠ 0 := by omega
  simp [hmin, hne, Handle.Read, herr, hav]

theorem readNextBlock_full (env : Env) (f : FileSplit) (w : Nat) (h : Handle)
    (hh : f.fileHandlers w = some h)
    (hfit : h.pos + f.byteCounter w ≤ h.data.length) (hfull : FullReads env w) :
    (readNextBlock env f w).2.1 = (h.data.drop h.pos).take (min f.blockSize (f.byteCounter w)) ∧
      (readNextBlock env f w).2.2.1 = min f.blockSize (f.byteCounter w) := by
  rw [readNextBlock_some env f w h hh]
  have h1 := (hfull h.reads (min f.blockSize (f.byteCounter w))).1
  have hn : min (env.read w h.reads (min f.blockSize (f.byteCounter w))).n
      (min (min f.blockSize (f.byteCounter w)) (h.data.length - h.pos))
      = min f.blockSize (f.byteCounter w) := by omega
  simp only [Handle.Read]
  rw [hn]
  simp

/-- Once the byte counter of a worker is at most the block size, the loop appends
exactly one part entry and stops, whatever the read and the write do. -/
theorem splitLoop_last (env : Env) (w fuel : Nat) (f : FileSplit) (fs : FS) (ps : List part)
    (bs : List (List Byte)) (hc : f.byteCounter w ≤ f.blockSize) :
    ∃ f1 fs1 p,
      splitLoop env w (fuel + 1) f fs ps bs =
          some (f1, fs1, ps ++ [p], bs ++ [(readNextBlock env f w).2.1]) ∧
        SameExcept w f f1 ∧ f1.byteCounter w = 0 ∧
        f1.blockFileIDs w = f.blockFileIDs w + 1 ∧
        RecordOf env f.fileName p (readNextBlock env f w).2.1 := by
  have hcnt : (readNextBlock env f w).1.byteCounter w = 0 := by
    rw [readNextBlock_counter]; omega
  have herr := readNextBlock_err_last env f w hcnt
  have hse := readNextBlock_sameExcept env f w
  have hids := readNextBlock_ids env f w
  rcases hr : readNextBlock env f w with ⟨f1, buf, n, err⟩
  rw [hr] at hcnt herr hse hids
  simp only at hcnt herr hse hids
  have hrec := savePartialLocal_record env (incBlockFileID f1 w) fs w
    ((incBlockFileID f1 w).blockFileIDs w) buf n
  rcases hs : savePartialLocal env (incBlockFileID f1 w) fs w
    ((incBlockFileID f1 w).blockFileIDs w) buf n with ⟨fs1, name, hash, e⟩
  rw [hs] at hrec
  simp only at hrec
  refine ⟨incBlockFileID f1 w, fs1, ⟨0, name, hash⟩, ?_, ?_, ?_, ?_, ?_⟩
  · rw [splitLoop_succ env w fuel f fs ps bs f1 buf n err fs1 name hash e hr hs]
    simp [herr]
  · exact sameExcept_trans hse (incBlockFileID_sameExcept _ w)
  · simpa [incBlockFileID] using hcnt
  · simp [incBlockFileID, hids]
  · have hfn : (incBlockFileID f1 w).fileName = f.fileName := hse.2.1
    rw [hfn] at hrec
    exact hrec

/-! ## The loop of a worker -/

/-- The loop of `split` on a range that lies inside the file, when no read of a
block before the last one returns an error: it returns, it has appended one part entry per
block, the blocks have the lengths of `chunkLens`, and when every read fills its
block the blocks are the bytes of the range. -/
theorem splitLoop_run (env : Env) (w : Nat) :
    ∀ (fuel : Nat) (f : FileSplit) (fs : FS) (ps : List part) (bs : List (List Byte))
      (h : Handle),
      f.fileHandlers w = some h → h.pos + f.byteCounter w ≤ h.data.length →
      0 < f.blockSize → f.byteCounter w < fuel →
      NoMidReadError env w h.reads (f.byteCounter w) f.blockSize →
      ∃ f1 fs1 ps1 bs1,
        splitLoop env w fuel f fs ps bs = some (f1, fs1, ps ++ ps1, bs ++ bs1) ∧
          SameExcept w f f1 ∧ f1.byteCounter w = 0 ∧
          List.Forall₂ (RecordOf env f.fileName) ps1 bs1 ∧
          bs1.map List.length = chunkLens (f.byteCounter w) f.blockSize ∧
          f1.blockFileIDs w = f.blockFileIDs w + bs1.length ∧
          (FullReads env w → bs1.flatten = (h.data.drop h.pos).take (f.byteCounter w)) := by
  intro fuel
  induction fuel with
  | zero => intro f fs ps bs h _ _ _ hlt; omega
  | succ fuel ih =>
    intro f fs ps bs h hh hfit hB hlt hmid
    by_cases hc : f.byteCounter w ≤ f.blockSize
    · obtain ⟨f1, fs1, p, heq, hse, hz, hid, hrec⟩ := splitLoop_last env w fuel f fs ps bs hc
      have hlen := readNextBlock_length env f w
      have hmin : min f.blockSize (f.byteCounter w) = f.byteCounter w := by omega
      refine ⟨f1, fs1, [p], [(readNextBlock env f w).2.1], heq, hse, hz, ?_, ?_, ?_, ?_⟩
      · exact List.Forall₂.cons hrec List.Forall₂.nil
      · rw [chunkLens_le hB hc]; simp [hlen, hmin]
      · simpa using hid
      · intro hfull
        have := (readNextBlock_full env f w h hh hfit hfull).1
        simp [this, hmin]
    · have hc2 : f.blockSize < f.byteCounter w := by omega
      have hmin : min f.blockSize (f.byteCounter w) = f.blockSize := by omega
      have herr := readNextBlock_err_mid env f w h hh hc2 hfit
        (by have := hmid 0 (by simpa using hc2); simpa using this)
      have hcnt := readNextBlock_counter env f w
      have hse := readNextBlock_sameExcept env f w
      have hids := readNextBlock_ids env f w
      have hlen := readNextBlock_length env f w
      obtain ⟨hhd, hn⟩ := readNextBlock_handle env f w h hh
      have hfullr := readNextBlock_full env f w h hh hfit
      rcases hr : readNextBlock env f w with ⟨f1, buf, n, err⟩
      rw [hr] at herr hcnt hse hids hlen hhd hn hfullr
      simp only at herr hcnt hse hids hlen hhd hn hfullr
      rw [hmin] at hcnt hlen hn hfullr
      have hrec := savePartialLocal_record env (incBlockFileID f1 w) fs w
        ((incBlockFileID f1 w).blockFileIDs w) buf n
      rcases hs : savePartialLocal env (incBlockFileID f1 w) fs w
        ((incBlockFileID f1 w).blockFileIDs w) buf n with ⟨fs1, name, hash, e⟩
      rw [hs] at hrec
      simp only at hrec
      have hse2 : SameExcept w f (incBlockFileID f1 w) :=
        sameExcept_trans hse (incBlockFileID_sameExcept _ w)
      have hfn : (incBlockFileID f1 w).fileName = f.fileName := hse2.2.1
      have hbs : (incBlockFileID f1 w).blockSize = f.blockSize := hse2.2.2.2.2.1
      have hcnt2 : (incBlockFileID f1 w).byteCounter w = f.byteCounter w - f.blockSize := hcnt
      have hh2 : (incBlockFileID f1 w).fileHandlers w =
          some { data := h.data, pos := h.pos + n, reads := h.reads + 1 } := hhd
      obtain ⟨f2, fs2, ps2, bs2, heq, hse3, hz, hall, hlens, hid, hcont⟩ :=
        ih (incBlockFileID f1 w) fs1 (ps ++ [{ order := 0, fileName := name, hash := hash }])
          (bs ++ [buf]) _ hh2 (by simp only [hcnt2]; omega) (by rw [hbs]; exact hB)
          (by rw [hcnt2]; omega)
          (by
            intro k hk
            rw [hbs] at hk ⊢
            rw [hcnt2] at hk
            have := hmid (k + 1) (by
              have : (k + 1 + 1) * f.blockSize = (k + 1) * f.blockSize + f.blockSize := by ring
              omega)
            simpa [Nat.add_assoc, Nat.add_comm 1 k] using this)
      refine ⟨f2, fs2, { order := 0, fileName := name, hash := hash } :: ps2, buf :: bs2,
        ?_, sameExcept_trans hse2 hse3, hz, ?_, ?_, ?_, ?_⟩
      · rw [splitLoop_succ env w fuel f fs ps bs f1 buf n err fs1 name hash e hr hs, heq]
        simp [herr]
      · rw [hfn] at hall hrec
        exact List.Forall₂.cons hrec hall
      · rw [chunkLens_gt hB hc2]
        rw [hbs, hcnt2] at hlens
        simp [hlen, hlens]
      · rw [hid]
        simp [incBlockFileID, hids]
        omega
      · intro hfull
        have h1 := hcont hfull
        obtain ⟨hb, hnn⟩ := hfullr hfull
        rw [hcnt2] at h1
        subst hnn
        simp only [List.flatten_cons, h1, hb]
        have : f.byteCounter w = f.blockSize + (f.byteCounter w - f.blockSize) := by omega
        conv_rhs => rw [this, List.take_add, List.drop_drop]

theorem sameExcept_toOutside {w : Nat} {f g : FileSplit} (h : SameExcept w f g) :
    SameOutside w (w + 1) f g := by
  obtain ⟨a1, a2, a3, a4, a5, a6, a7, a8⟩ := h
  exact ⟨a1, a2, a3, a4, a5, a6, a7, fun v hv => a8 v (by omega)⟩

theorem sameOutside_refl (lo hi : Nat) (f : FileSplit) : SameOutside lo hi f f := by
  simp [SameOutside]

theorem sameOutside_trans {lo mid hi : Nat} {f g k : FileSplit} (h1 : SameOutside lo mid f g)
    (h2 : SameOutside mid hi g k) (hlm : lo ≤ mid) (hmh : mid ≤ hi) : SameOutside lo hi f k := by
  obtain ⟨a1, a2, a3, a4, a5, a6, a7, a8⟩ := h1
  obtain ⟨b1, b2, b3, b4, b5, b6, b7, b8⟩ := h2
  refine ⟨b1.trans a1, b2.trans a2, b3.trans a3, b4.trans a4, b5.trans a5, b6.trans a6,
    b7.trans a7, ?_⟩
  intro v hv
  obtain ⟨c1, c2, c3⟩ := a8 v (by omega)
  obtain ⟨d1, d2, d3⟩ := b8 v (by omega)
  exact ⟨d1.trans c1, d2.trans c2, d3.trans c3⟩

/-- The loop of `split` returns for every outcome of its reads and writes, given a positive
block size and fuel above the byte counter. -/
theorem splitLoop_any (env : Env) (w : Nat) :
    ∀ (fuel : Nat) (f : FileSplit) (fs : FS) (ps : List part) (bs : List (List Byte)),
      0 < f.blockSize → f.byteCounter w < fuel →
      ∃ f1 fs1 ps1 bs1,
        splitLoop env w fuel f fs ps bs = some (f1, fs1, ps ++ ps1, bs ++ bs1) ∧
          SameExcept w f f1 ∧ List.Forall₂ (RecordOf env f.fileName) ps1 bs1 := by
  intro fuel
  induction fuel with
  | zero => intro f fs ps bs _ hlt; omega
  | succ fuel ih =>
    intro f fs ps bs hB hlt
    by_cases hc : f.byteCounter w ≤ f.blockSize
    · obtain ⟨f1, fs1, p, heq, hse, _, _, hrec⟩ := splitLoop_last env w fuel f fs ps bs hc
      exact ⟨f1, fs1, [p], [(readNextBlock env f w).2.1], heq, hse,
        List.Forall₂.cons hrec List.Forall₂.nil⟩
    · have hcnt := readNextBlock_counter env f w
      have hse := readNextBlock_sameExcept env f w
      rcases hr : readNextBlock env f w with ⟨f1, buf, n, err⟩
      rw [hr] at hcnt hse
      simp only at hcnt hse
      have hrec := savePartialLocal_record env (incBlockFileID f1 w) fs w
        ((incBlockFileID f1 w).blockFileIDs w) buf n
      rcases hs : savePartialLocal env (incBlockFileID f1 w) fs w
        ((incBlockFileID f1 w).blockFileIDs w) buf n with ⟨fs1, name, hash, e⟩
      rw [hs] at hrec
      simp only at hrec
      have hse2 : SameExcept w f (incBlockFileID f1 w) :=
        sameExcept_trans hse (incBlockFileID_sameExcept _ w)
      have hfn : (incBlockFileID f1 w).fileName = f.fileName := hse2.2.1
      have hbs : (incBlockFileID f1 w).blockSize = f.blockSize := hse2.2.2.2.2.1
      have hcnt2 : (incBlockFileID f1 w).byteCounter w =
          f.byteCounter w - min f.blockSize (f.byteCounter w) := hcnt
      rw [hfn] at hrec
      rw [splitLoop_succ env w fuel f fs ps bs f1 buf n err fs1 name hash e hr hs]
      by_cases h1 : err ≠ none ∧ err ≠ some "EOP"
      · refine ⟨f1, fs, [], [], ?_, hse, List.Forall₂.nil⟩
        simp [h1]
      · by_cases h2 : err = some "EOP"
        · refine ⟨incBlockFileID f1 w, fs1, [{ order := 0, fileName := name, hash := hash }],
            [buf], ?_, hse2, List.Forall₂.cons hrec List.Forall₂.nil⟩
          simp [h2]
        · obtain ⟨f2, fs2, ps2, bs2, heq, hse3, hall⟩ :=
            ih (incBlockFileID f1 w) fs1 (ps ++ [{ order := 0, fileName := name, hash := hash }])
              (bs ++ [buf]) (by rw [hbs]; exact hB) (by rw [hcnt2]; omega)
          refine ⟨f2, fs2, { order := 0, fileName := name, hash := hash } :: ps2, buf :: bs2,
            ?_, sameExcept_trans hse2 hse3, ?_⟩
          · rw [if_neg h1, if_neg h2, heq]
            simp
          · rw [hfn] at hall
            exact List.Forall₂.cons hrec hall

/-! ## All workers -/

theorem rangeBytes_congr {f g : FileSplit} {v : Nat} (hc : g.byteCounter v = f.byteCounter v)
    (hh : g.fileHandlers v = f.fileHandlers v) : rangeBytes g v = rangeBytes f v := by
  simp [rangeBytes, hc, hh]

theorem map_range_succ {α : Type} (g : Nat → α) (n : Nat) :
    (List.range (n + 1)).map g = g 0 :: (List.range n).map (fun j => g (j + 1)) := by
  rw [List.range_succ_eq_map, List.map_cons, List.map_map]
  rfl

/-- The workers return for every outcome of their reads and writes. -/
theorem runWorkers_any (env : Env) (fuel : Nat) :
    ∀ (n k : Nat) (f : FileSplit) (fs : FS),
      0 < f.blockSize → (∀ j, j < n → f.byteCounter (k + j) < fuel) →
      ∃ f1 fs1 lps lbs,
        runWorkers env fuel n k f fs = some (f1, fs1, lps, lbs) ∧
          SameOutside k (k + n) f f1 ∧ lps.length = n ∧
          List.Forall₂ (List.Forall₂ (RecordOf env f.fileName)) lps lbs := by
  intro n
  induction n with
  | zero =>
    intro k f fs _ _
    exact ⟨f, fs, [], [], rfl, sameOutside_refl _ _ f, rfl, List.Forall₂.nil⟩
  | succ n ih =>
    intro k f fs hB hfuel
    obtain ⟨f1, fs1, ps1, bs1, heq, hse, hall⟩ :=
      splitLoop_any env k fuel f fs [] [] hB (by simpa using hfuel 0 (by omega))
    have hbs : f1.blockSize = f.blockSize := hse.2.2.2.2.1
    have hfn : f1.fileName = f.fileName := hse.2.1
    obtain ⟨f2, fs2, lps, lbs, heq2, hso, hlen, hall2⟩ :=
      ih (k + 1) f1 fs1 (by rw [hbs]; exact hB) (by
        intro j hj
        rw [(hse.2.2.2.2.2.2.2 (k + 1 + j) (by omega)).1]
        have := hfuel (j + 1) (by omega)
        rwa [show k + (j + 1) = k + 1 + j by omega] at this)
    refine ⟨f2, fs2, ps1 :: lps, bs1 :: lbs, ?_, ?_, by simp [hlen], ?_⟩
    · simp only [runWorkers, split, heq, heq2, List.nil_append]
    · exact sameOutside_trans (sameExcept_toOutside hse) (by rwa [show k + (n + 1) = k + 1 + n by omega]) (by omega)
        (by omega)
    · rw [hfn] at hall2
      exact List.Forall₂.cons hall hall2

/-- When every read fills its block, every worker returns the bytes of its range,
cut into blocks of the lengths of `chunkLens`. -/
theorem runWorkers_full (env : Env) (fuel : Nat) :
    ∀ (n k : Nat) (f : FileSplit) (fs : FS),
      0 < f.blockSize → (∀ j, j < n → f.byteCounter (k + j) < fuel) →
      (∀ j, j < n → ∃ h, f.fileHandlers (k + j) = some h ∧
        h.pos + f.byteCounter (k + j) ≤ h.data.length) →
      (∀ j, j < n → FullReads env (k + j)) →
      ∃ f1 fs1 lps lbs,
        runWorkers env fuel n k f fs = some (f1, fs1, lps, lbs) ∧
          lbs.map List.flatten = (List.range n).map (fun j => rangeBytes f (k + j)) ∧
          lbs.map (fun bs => bs.map List.length) =
            (List.range n).map (fun j => chunkLens (f.byteCounter (k + j)) f.blockSize) := by
  intro n
  induction n with
  | zero =>
    intro k f fs _ _ _ _
    exact ⟨f, fs, [], [], rfl, rfl, rfl⟩
  | succ n ih =>
    intro k f fs hB hfuel hhand hfull
    obtain ⟨h, hh, hfit⟩ := hhand 0 (by omega)
    simp only [Nat.add_zero] at hh hfit
    have hfull0 : FullReads env k := by simpa using hfull 0 (by omega)
    obtain ⟨f1, fs1, ps1, bs1, heq, hse, _, _, hlens, _, hcont⟩ :=
      splitLoop_run env k fuel f fs [] [] h hh hfit hB (by simpa using hfuel 0 (by omega))
        (fun j _ => (hfull0 _ _).2)
    have hbs : f1.blockSize = f.blockSize := hse.2.2.2.2.1
    have hframe : ∀ j, f1.byteCounter (k + 1 + j) = f.byteCounter (k + 1 + j) ∧
        f1.fileHandlers (k + 1 + j) = f.fileHandlers (k + 1 + j) := by
      intro j
      have := hse.2.2.2.2.2.2.2 (k + 1 + j) (by omega)
      exact ⟨this.1, this.2.2⟩
    obtain ⟨f2, fs2, lps, lbs, heq2, hb2, hl2⟩ :=
      ih (k + 1) f1 fs1 (by rw [hbs]; exact hB) (by
        intro j hj
        rw [(hframe j).1]
        have := hfuel (j + 1) (by omega)
        rwa [show k + (j + 1) = k + 1 + j by omega] at this) (by
        intro j hj
        rw [(hframe j).1, (hframe j).2]
        have := hhand (j + 1) (by omega)
        rwa [show k + (j + 1) = k + 1 + j by omega] at this) (by
        intro j hj
        have := hfull (j + 1) (by omega)
        rwa [show k + (j + 1) = k + 1 + j by omega] at this)
    refine ⟨f2, fs2, ps1 :: lps, bs1 :: lbs, ?_, ?_, ?_⟩
    · simp only [runWorkers, split, heq, heq2, List.nil_append]
    · rw [map_range_succ, List.map_cons, hb2, hcont hfull0]
      congr 1
      · simp [rangeBytes, hh]
      · apply List.map_congr_left
        intro j _
        rw [show k + (j + 1) = k + 1 + j by omega]
        exact rangeBytes_congr (hframe j).1 (hframe j).2
    · rw [map_range_succ, List.map_cons, hl2, hlens]
      congr 1
      apply List.map_congr_left
      intro j _
      rw [show k + (j + 1) = k + 1 + j by omega, (hframe j).1, hbs]

/-! ## The ranges -/

theorem openLoop_spec (env : Env) (fs : FS) (src : List Byte) (b : Nat) :
    ∀ (n k p : Nat) (f : FileSplit),
      readFile fs f.fileName = some src → (∀ j, j < n → env.openErr (k + j) = none) →
      ∃ f1, openLoop env fs b n k p f = (f1, none) ∧ SameOutside k (k + n) f f1 ∧
        f1.blockFileIDs = f.blockFileIDs ∧
        ∀ j, j < n →
          f1.fileHandlers (k + j) = some { data := src, pos := p + j * b, reads := 0 } ∧
            f1.byteCounter (k + j) = b := by
  intro n
  induction n with
  | zero =>
    intro k p f _ _
    exact ⟨f, rfl, sameOutside_refl _ _ f, rfl, fun j hj => by omega⟩
  | succ n ih =>
    intro k p f hsrc hopen
    have ho : env.openErr k = none := by simpa using hopen 0 (by omega)
    obtain ⟨f1, heq, hso, hids, hslots⟩ :=
      ih (k + 1) (p + b)
        { f with
          fileHandlers := Function.update f.fileHandlers k
            (some { data := src, pos := p, reads := 0 })
          byteCounter := Function.update f.byteCounter k b }
        hsrc (by
          intro j hj
          have := hopen (j + 1) (by omega)
          rwa [show k + (j + 1) = k + 1 + j by omega] at this)
    refine ⟨f1, ?_, ?_, hids, ?_⟩
    · simp only [openLoop, openFile, hsrc, ho, setOffset, Function.update_same,
        Function.update_idem]
      exact heq
    · obtain ⟨a1, a2, a3, a4, a5, a6, a7, a8⟩ := hso
      refine ⟨a1, a2, a3, a4, a5, a6, a7, ?_⟩
      intro v hv
      have hvk : v ≠ k := by omega
      obtain ⟨c1, c2, c3⟩ := a8 v (by omega)
      refine ⟨?_, c2, ?_⟩
      · rw [c1]; simp [Function.update_noteq hvk]
      · rw [c3]; simp [Function.update_noteq hvk]
    · intro j hj
      cases j with
      | zero =>
        obtain ⟨c1, _, c3⟩ := hso.2.2.2.2.2.2.2 k (by omega)
        simp [c1, c3]
      | succ j =>
        have := hslots j (by omega)
        rw [show k + (j + 1) = k + 1 + j by omega]
        rw [this.1, this.2]
        refine ⟨?_, rfl⟩
        congr 2
        ring

theorem div_add_mod_le (S W : Nat) (hW : 1 ≤ W) : S / W + S % W ≤ S := by
  have h := Nat.div_add_mod S W
  have : S / W ≤ W * (S / W) := Nat.le_mul_of_pos_left _ (by omega)
  omega

theorem assignRanges_spec (env : Env) (fs : FS) (src : List Byte) (f : FileSplit)
    (hW : 1 ≤ f.workers) (hsrc : readFile fs f.fileName = some src)
    (hopen : ∀ w, w < f.workers → env.openErr w = none) :
    ∃ f1, assignRanges env fs f = (f1, none) ∧ SameOutside 0 f.workers f f1 ∧
      f1.blockFileIDs = f.blockFileIDs ∧
      ∀ w, w < f.workers →
        f1.fileHandlers w = some { data := src, pos := w * (f.size / f.workers), reads := 0 } ∧
          f1.byteCounter w =
            f.size / f.workers + (if w + 1 = f.workers then f.size % f.workers else 0) := by
  obtain ⟨f1, heq, hso, hids, hslots⟩ :=
    openLoop_spec env fs src (f.size / f.workers) f.workers 0 0 f hsrc
      (by intro j hj; simpa using hopen j hj)
  simp only [Nat.zero_add] at hso hslots
  refine ⟨{ f1 with
      byteCounter :=
        Function.update f1.byteCounter (f.workers - 1)
          (f1.byteCounter (f.workers - 1) + f.size % f.workers) },
    by simp only [assignRanges, heq], ?_, hids, ?_⟩
  · obtain ⟨a1, a2, a3, a4, a5, a6, a7, a8⟩ := hso
    refine ⟨a1, a2, a3, a4, a5, a6, a7, ?_⟩
    intro v hv
    obtain ⟨c1, c2, c3⟩ := a8 v hv
    refine ⟨?_, c2, c3⟩
    have : v ≠ f.workers - 1 := by omega
    simp [Function.update_noteq this, c1]
  · intro w hw
    obtain ⟨c1, c2⟩ := hslots w hw
    refine ⟨c1, ?_⟩
    by_cases hl : w + 1 = f.workers
    · have : w = f.workers - 1 := by omega
      subst this
      rw [if_pos hl]
      simp [c2]
    · have : w ≠ f.workers - 1 := by omega
      simp [Function.update_noteq this, c2, hl]

/-! ## The merge -/

theorem numbered_append (order : Nat) (a b : List part) :
    numbered order (a ++ b) = numbered order a ++ numbered (order + a.length) b := by
  simp [numbered, List.enumFrom_append]

theorem numbered_length (order : Nat) (ps : List part) : (numbered order ps).length = ps.length := by
  simp [numbered]

theorem numbered_getElem? (order : Nat) (ps : List part) (i : Nat) :
    (numbered order ps)[i]? = ps[i]?.map fun p => { p with order := order + i } := by
  simp only [numbered, List.getElem?_map, List.getElem?_enumFrom]
  cases ps[i]? <;> simp

theorem mergeWorker_spec (l : List part) :
    ∀ (order : Nat) (parts : List part),
      mergeWorker l order parts = (parts ++ numbered order l, order + l.length) := by
  induction l with
  | nil => intro order parts; simp [mergeWorker, numbered]
  | cons p rest ih =>
    intro order parts
    simp only [mergeWorker, ih, List.append_assoc, List.length_cons]
    refine Prod.ext ?_ (by simp; omega)
    simp [numbered]

theorem mergeLoop_spec (lps : List (List part)) :
    ∀ (order : Nat) (parts : List part),
      mergeLoop lps order parts = parts ++ numbered order lps.flatten := by
  induction lps with
  | nil => intro order parts; simp [mergeLoop, numbered]
  | cons l ls ih =>
    intro order parts
    simp only [mergeLoop, mergeWorker_spec, ih, List.flatten_cons, numbered_append,
      List.append_assoc]

theorem numbered_record (env : Env) (fileName : String) :
    ∀ (ps : List part) (bs : List (List Byte)) (order : Nat),
      List.Forall₂ (RecordOf env fileName) ps bs →
      List.Forall₂ (RecordOf env fileName) (numbered order ps) bs := by
  intro ps bs order h
  induction h generalizing order with
  | nil => simp [numbered]
  | cons hab _ ih =>
    simp only [numbered, List.enumFrom_cons, List.map_cons]
    exact List.Forall₂.cons hab (ih (order + 1))

/-! ## Cutting a list into consecutive slices -/

theorem flatten_slices (src : List Byte) (st ln : Nat → Nat) :
    ∀ n, (∀ j, j < n → st j + ln j = st (j + 1)) →
      st 0 ≤ st n ∧
      ((List.range (n + 1)).map (fun j => (src.drop (st j)).take (ln j))).flatten =
        (src.drop (st 0)).take (st n + ln n - st 0) := by
  intro n
  induction n with
  | zero => intro _; simp [List.range_succ]
  | succ n ih =>
    intro hc
    obtain ⟨hle, heq⟩ := ih (fun j hj => hc j (by omega))
    have hn := hc n (by omega)
    refine ⟨by omega, ?_⟩
    rw [List.range_succ, List.map_append, List.flatten_append, heq]
    simp only [List.map_cons, List.map_nil, List.flatten_cons, List.flatten_nil,
      List.append_nil]
    have : st (n + 1) + ln (n + 1) - st 0 = (st n + ln n - st 0) + ln (n + 1) := by omega
    rw [this, List.take_add, List.drop_drop]
    congr 3
    omega

/-! ## The steps of `Split` -/

theorem Split_eq (env : Env) (fuel : Nat) (f f1 f2 : FileSplit) (fs fs1 : FS)
    (lps : List (List part)) (lbs : List (List (List Byte)))
    (hW : 1 ≤ f.workers) (ha : assignRanges env fs f = (f1, none))
    (hr : runWorkers env fuel f.workers 0 f1 fs = some (f2, fs1, lps, lbs)) :
    ∃ out, Split env fuel f fs = some out ∧
      out.fsplit = { f2 with parts := f2.parts ++ numbered 0 lps.flatten } ∧
      out.blocks = lbs.flatten ∧
      out.err = (if f2.hash ≠ "" then verifySplit env out.fsplit fs1 else none) ∧
      out.fs = (if out.err = none then (writeManifest env out.fsplit fs1).1 else fs1) := by
  have hW0 : f.workers ≠ 0 := by omega
  simp only [Split, hW0, if_false, ha, hr, mergeLoop_spec]
  by_cases hh : f2.hash = ""
  · simp [hh]
  · simp only [ne_eq, hh, not_false_eq_true, if_true]
    cases hv : verifySplit env { f2 with parts := f2.parts ++ numbered 0 lps.flatten } fs1 with
    | none => simp [hv]
    | some e => simp [hv]

/-! ## Ranges and global order -/

/-- C2 (range coverage): for every file size and every worker count of at least 1,
once `Split` has opened the source for every worker, worker `w` starts at offset
`w * (size / workers)`, every worker but the last has `size / workers` bytes, the last has
`size mod workers` more, range 0 starts at 0, every range ends where the next starts, and the
last range ends at `size`. -/
theorem Split_ranges_cover (env : Env) (fs : FS) (src : List Byte) (f : FileSplit)
    (hW : 1 ≤ f.workers) (hsrc : readFile fs f.fileName = some src)
    (hopen : ∀ w, w < f.workers → env.openErr w = none) :
    ∃ f1, assignRanges env fs f = (f1, none) ∧
      (∀ w, w < f.workers →
        (f1.fileHandlers w).map Handle.pos = some (w * (f.size / f.workers))) ∧
      (∀ w, w + 1 < f.workers → f1.byteCounter w = f.size / f.workers) ∧
      f1.byteCounter (f.workers - 1) = f.size / f.workers + f.size % f.workers ∧
      rangeStart f1 0 = 0 ∧
      (∀ w, w + 1 < f.workers → rangeStart f1 w + f1.byteCounter w = rangeStart f1 (w + 1)) ∧
      rangeStart f1 (f.workers - 1) + f1.byteCounter (f.workers - 1) = f.size := by
  obtain ⟨f1, heq, _, _, hslots⟩ := assignRanges_spec env fs src f hW hsrc hopen
  have hstart : ∀ w, w < f.workers → rangeStart f1 w = w * (f.size / f.workers) := by
    intro w hw
    simp [rangeStart, (hslots w hw).1]
  have hlast : f1.byteCounter (f.workers - 1) = f.size / f.workers + f.size % f.workers := by
    rw [(hslots (f.workers - 1) (by omega)).2, if_pos (by omega)]
  refine ⟨f1, heq, ?_, ?_, hlast, ?_, ?_, ?_⟩
  · intro w hw
    simp [(hslots w hw).1]
  · intro w hw
    rw [(hslots w (by omega)).2, if_neg (by omega)]
    rfl
  · rw [hstart 0 (by omega)]; simp
  · intro w hw
    rw [hstart w (by omega), hstart (w + 1) hw, (hslots w (by omega)).2, if_neg (by omega)]
    ring
  · rw [hstart _ (by omega), hlast]
    obtain ⟨m, hm⟩ : ∃ m, f.workers = m + 1 := ⟨f.workers - 1, by omega⟩
    have h := Nat.div_add_mod f.size f.workers
    rw [hm] at h ⊢
    simp only [Nat.add_sub_cancel]
    have : (m + 1) * (f.size / (m + 1)) = m * (f.size / (m + 1)) + f.size / (m + 1) := by ring
    omega

/-- The ranges of two workers on a file of five bytes: 0..2 and 2..5. -/
theorem Split_ranges_cover_witness :
    ∃ f1, assignRanges idealEnv demoFS demoSplit = (f1, none) ∧
      rangeStart f1 0 = 0 ∧ rangeStart f1 0 + f1.byteCounter 0 = rangeStart f1 1 ∧
      rangeStart f1 1 + f1.byteCounter 1 = 5 := by
  obtain ⟨f1, heq, _, _, _, h0, hc, he⟩ :=
    Split_ranges_cover idealEnv demoFS [1, 2, 3, 4, 5] demoSplit (by decide) (by decide)
      (fun _ _ => rfl)
  exact ⟨f1, heq, h0, hc 0 (by decide), he⟩

theorem assignRanges_counter_le (f f1 : FileSplit) (hW : 1 ≤ f.workers) (w : Nat)
    (hc : f1.byteCounter w =
      f.size / f.workers + (if w + 1 = f.workers then f.size % f.workers else 0)) :
    f1.byteCounter w ≤ f.size := by
  have := div_add_mod_le f.size f.workers hW
  rw [hc]
  split <;> omega

/-- C4 (global order): after `Split` on a freshly constructed `FileSplit`, `fsplit.parts`
is the concatenation of the per-worker part lists in ascending worker index, the part at
position `i` has `order = i`, and the manifest lists the same parts with `Order = i` and
the hash and file name of part `i`. -/
theorem Split_global_order (env : Env) (fuel : Nat) (fs : FS) (src : List Byte) (f : FileSplit)
    (hW : 1 ≤ f.workers) (hB : 0 < f.blockSize) (hfresh : f.parts = [])
    (hsrc : readFile fs f.fileName = some src)
    (hopen : ∀ w, w < f.workers → env.openErr w = none) (hfuel : f.size < fuel) :
    ∃ f1 f2 fs2 localParts localBlocks out,
      assignRanges env fs f = (f1, none) ∧
      runWorkers env fuel f.workers 0 f1 fs = some (f2, fs2, localParts, localBlocks) ∧
      Split env fuel f fs = some out ∧
      localParts.length = f.workers ∧
      out.fsplit.parts.length = localParts.flatten.length ∧
      (∀ (i : Nat) (p : part), out.fsplit.parts[i]? = some p →
        p.order = i ∧
          ∃ q : part, localParts.flatten[i]? = some q ∧ p.fileName = q.fileName ∧ p.hash = q.hash) ∧
      (GetManifest out.fsplit).Parts.length = out.fsplit.parts.length ∧
      (∀ (i : Nat) (p : part), out.fsplit.parts[i]? = some p →
        (GetManifest out.fsplit).Parts[i]? =
          some { Hash := p.hash, FileName := p.fileName, Order := i }) := by
  obtain ⟨f1, ha, hso, _, hslots⟩ := assignRanges_spec env fs src f hW hsrc hopen
  have hbs : f1.blockSize = f.blockSize := hso.2.2.2.2.1
  obtain ⟨f2, fs2, lps, lbs, hr, hso2, hlen, _⟩ :=
    runWorkers_any env fuel f.workers 0 f1 fs (by rw [hbs]; exact hB) (by
      intro j hj
      have := assignRanges_counter_le f f1 hW j (hslots j hj).2
      simp only [Nat.zero_add]
      omega)
  obtain ⟨out, hs, hfs, _, _, _⟩ := Split_eq env fuel f f1 f2 fs fs2 lps lbs hW ha hr
  have hparts : out.fsplit.parts = numbered 0 lps.flatten := by
    rw [hfs]
    have : f2.parts = [] := by rw [hso2.2.2.2.2.2.2.1, hso.2.2.2.2.2.2.1, hfresh]
    simp [this]
  have horder : ∀ (i : Nat) (p : part), out.fsplit.parts[i]? = some p →
      p.order = i ∧
        ∃ q : part, lps.flatten[i]? = some q ∧ p.fileName = q.fileName ∧ p.hash = q.hash := by
    intro i p hp
    rw [hparts, numbered_getElem?] at hp
    cases hq : lps.flatten[i]? with
    | none => simp [hq] at hp
    | some q =>
      simp only [hq, Option.map_some', Option.some.injEq] at hp
      subst hp
      exact ⟨by simp, q, rfl, rfl, rfl⟩
  refine ⟨f1, f2, fs2, lps, lbs, out, ha, hr, hs, hlen, ?_, horder, ?_, ?_⟩
  · rw [hparts, numbered_length]
  · simp [GetManifest]
  · intro i p hp
    have := (horder i p hp).1
    simp [GetManifest, hp, this]

/-- The parts of two workers on a file of five bytes carry the orders 0, 1, 2. -/
theorem Split_global_order_witness :
    ∃ out, Split idealEnv 6 demoSplit demoFS = some out ∧
      (∀ (i : Nat) (p : part), out.fsplit.parts[i]? = some p → p.order = i) ∧
      (GetManifest out.fsplit).Parts.length = out.fsplit.parts.length := by
  obtain ⟨_, _, _, _, _, out, _, _, hs, _, _, ho, hm, _⟩ :=
    Split_global_order idealEnv 6 demoFS [1, 2, 3, 4, 5] demoSplit (by decide) (by decide) rfl
      (by decide) (fun _ _ => rfl) (by decide)
  exact ⟨out, hs, fun i p hp => (ho i p hp).1, hm⟩

/-- After the ranges are assigned, when every read fills its block, the workers return
and the byte slices of their parts, worker after worker, concatenate to the source. -/
theorem runWorkers_source (env : Env) (fuel : Nat) (fs : FS) (src : List Byte)
    (f f1 : FileSplit) (hW : 1 ≤ f.workers) (hB : 0 < f.blockSize)
    (hsize : f.size = src.length) (hso : SameOutside 0 f.workers f f1)
    (hslots : ∀ w, w < f.workers →
      f1.fileHandlers w = some { data := src, pos := w * (f.size / f.workers), reads := 0 } ∧
        f1.byteCounter w =
          f.size / f.workers + (if w + 1 = f.workers then f.size % f.workers else 0))
    (hfull : ∀ w, w < f.workers → FullReads env w) (hfuel : src.length < fuel) :
    (∀ j, j < f.workers → f1.byteCounter (0 + j) < fuel) ∧
      (∀ j, j < f.workers → ∃ h, f1.fileHandlers (0 + j) = some h ∧
        h.pos + f1.byteCounter (0 + j) ≤ h.data.length) ∧
      ∃ f2 fs2 lps lbs,
        runWorkers env fuel f.workers 0 f1 fs = some (f2, fs2, lps, lbs) ∧
          lbs.flatten.flatten = src ∧ SameOutside 0 (0 + f.workers) f1 f2 ∧
          List.Forall₂ (List.Forall₂ (RecordOf env f.fileName)) lps lbs := by
  have hbs : f1.blockSize = f.blockSize := hso.2.2.2.2.1
  have hfn : f1.fileName = f.fileName := hso.2.1
  have hcle : ∀ j, j < f.workers → f1.byteCounter (0 + j) < fuel := by
    intro j hj
    have := assignRanges_counter_le f f1 hW j (hslots j hj).2
    simp only [Nat.zero_add]
    omega
  obtain ⟨m, hm⟩ : ∃ m, f.workers = m + 1 := ⟨f.workers - 1, by omega⟩
  have hdm := Nat.div_add_mod f.size f.workers
  have hfit : ∀ j, j < f.workers →
      j * (f.size / f.workers) + f1.byteCounter j ≤ src.length := by
    intro j hj
    rw [(hslots j hj).2, ← hsize]
    have h1 : (j + 1) * (f.size / f.workers) ≤ f.workers * (f.size / f.workers) :=
      Nat.mul_le_mul_right _ (by omega)
    have h2 : (j + 1) * (f.size / f.workers) =
        j * (f.size / f.workers) + f.size / f.workers := by ring
    split
    · rename_i hl
      have h3 : (j + 1) * (f.size / f.workers) = f.workers * (f.size / f.workers) := by
        rw [hl]
      omega
    · omega
  have hhand : ∀ j, j < f.workers → ∃ h, f1.fileHandlers (0 + j) = some h ∧
      h.pos + f1.byteCounter (0 + j) ≤ h.data.length := by
    intro j hj
    refine ⟨_, by simpa using (hslots j hj).1, ?_⟩
    simpa using hfit j hj
  obtain ⟨f2, fs2, lps, lbs, hr, hso2, _, hall⟩ :=
    runWorkers_any env fuel f.workers 0 f1 fs (by rw [hbs]; exact hB) hcle
  obtain ⟨f2', fs2', lps', lbs', hr', hflat, _⟩ :=
    runWorkers_full env fuel f.workers 0 f1 fs (by rw [hbs]; exact hB) hcle hhand
      (by intro j hj; simpa using hfull j hj)
  rw [hr] at hr'
  simp only [Option.some.injEq, Prod.mk.injEq] at hr'
  obtain ⟨_, _, _, hlbs⟩ := hr'
  subst hlbs
  rw [hfn] at hall
  refine ⟨hcle, hhand, f2, fs2, lps, lbs, hr, ?_, hso2, hall⟩
  rw [List.flatten_flatten, hflat]
  have hmap : (List.range f.workers).map (fun j => rangeBytes f1 (0 + j)) =
      (List.range (m + 1)).map (fun j =>
        (src.drop (j * (f.size / f.workers))).take
          (f.size / f.workers + (if j + 1 = f.workers then f.size % f.workers else 0))) := by
    rw [hm]
    apply List.map_congr_left
    intro j hj
    have hj' : j < f.workers := by rw [hm]; exact List.mem_range.mp hj
    simp only [Nat.zero_add, rangeBytes, (hslots j hj').1, (hslots j hj').2, hm]
  rw [hmap]
  have hsl := (flatten_slices src (fun j => j * (f.size / f.workers))
    (fun j => f.size / f.workers + (if j + 1 = f.workers then f.size % f.workers else 0)) m
    (by
      intro j hj
      simp only
      rw [if_neg (by omega)]
      ring)).2
  rw [hsl]
  simp only [Nat.zero_mul, List.drop_zero, Nat.sub_zero]
  apply List.take_of_length_le
  rw [if_pos (by omega), ← hsize]
  have : (m + 1) * (f.size / f.workers) = m * (f.size / f.workers) + f.size / f.workers := by
    ring
  rw [hm] at hdm this
  rw [hm]
  omega

/-! ## Block lengths -/

theorem blockCount_bounds {L B : Nat} (hB : 0 < B) (hL : 0 < L) :
    (blockCount L B - 1) * B < L ∧ L ≤ blockCount L B * B := by
  have h1 : blockCount L B * B ≤ L + B - 1 := Nat.div_mul_le_self _ _
  have h2 : L + B - 1 < B * ((L + B - 1) / B + 1) := Nat.lt_mul_div_succ _ hB
  have hp := blockCount_pos hB hL
  obtain ⟨m, hm⟩ : ∃ m, blockCount L B = m + 1 := ⟨blockCount L B - 1, by omega⟩
  have h3 : B * ((L + B - 1) / B + 1) = blockCount L B * B + B := by
    unfold blockCount; ring
  rw [h3] at h2
  rw [hm] at h1 h2 ⊢
  simp only [Nat.add_sub_cancel]
  have h4 : (m + 1) * B = m * B + B := by ring
  rw [h4] at h1 h2 ⊢
  omega

theorem chunkLens_length (L B : Nat) : (chunkLens L B).length = blockCount L B - 1 + 1 := by
  simp [chunkLens]

theorem chunkLens_sum {L B : Nat} (hB : 0 < B) : (chunkLens L B).sum = L := by
  by_cases hL : 0 < L
  · have h := (blockCount_bounds hB hL).1
    simp only [chunkLens, List.sum_append, List.sum_replicate, smul_eq_mul, List.sum_cons,
      List.sum_nil, Nat.add_zero]
    omega
  · have : L = 0 := by omega
    subst this
    simp [chunkLens, blockCount_le hB (Nat.zero_le B)]

theorem chunkLens_getElem? {L B : Nat} (hB : 0 < B) (hL : 0 < L) (k : Nat)
    (hk : k < blockCount L B) : (chunkLens L B)[k]? = some (min B (L - k * B)) := by
  obtain ⟨h1, h2⟩ := blockCount_bounds hB hL
  obtain ⟨m, hm⟩ : ∃ m, blockCount L B = m + 1 := ⟨blockCount L B - 1, by omega⟩
  rw [hm] at h1 h2 hk
  simp only [Nat.add_sub_cancel] at h1
  have h4 : (m + 1) * B = m * B + B := by ring
  rw [h4] at h2
  simp only [chunkLens, hm, Nat.add_sub_cancel]
  by_cases hkm : k < m
  · rw [List.getElem?_append_left (by simpa using hkm)]
    have hle : (k + 1) * B ≤ m * B := Nat.mul_le_mul_right _ (by omega)
    have h5 : (k + 1) * B = k * B + B := by ring
    rw [h5] at hle
    simp [List.getElem?_replicate, hkm]
    omega
  · have : k = m := by omega
    subst this
    rw [List.getElem?_append_right (by simp)]
    simp
    omega

/-- C3, as amended (block chunking): for every worker range of length `L > 0` that lies
inside the file and every block size `B > 0`, when no read of a block before the last one
returns an error, the loop of the worker returns after recording exactly `ceil(L/B)` parts;
block `k` has length `min(B, L - k*B)`, so every block but the last has length `B`, the last has
length `L - (ceil(L/B)-1)*B`, and the lengths sum to `L`.  The entries of the other workers
are left alone. -/
theorem split_block_chunking (env : Env) (fuel : Nat) (f : FileSplit) (fs : FS) (w : Nat)
    (h : Handle) (hh : f.fileHandlers w = some h)
    (hfit : h.pos + f.byteCounter w ≤ h.data.length) (hL : 0 < f.byteCounter w)
    (hB : 0 < f.blockSize) (hfuel : f.byteCounter w < fuel)
    (hmid : NoMidReadError env w h.reads (f.byteCounter w) f.blockSize) :
    ∃ f1 fs1 ps bs, split env fuel f fs w = some (f1, fs1, ps, bs) ∧
      ps.length = blockCount (f.byteCounter w) f.blockSize ∧
      bs.length = blockCount (f.byteCounter w) f.blockSize ∧
      (∀ k, k < blockCount (f.byteCounter w) f.blockSize →
        (bs.map List.length)[k]? = some (min f.blockSize (f.byteCounter w - k * f.blockSize))) ∧
      bs.map List.length =
        List.replicate (blockCount (f.byteCounter w) f.blockSize - 1) f.blockSize ++
          [f.byteCounter w - (blockCount (f.byteCounter w) f.blockSize - 1) * f.blockSize] ∧
      (bs.map List.length).sum = f.byteCounter w ∧
      SameExcept w f f1 := by
  obtain ⟨f1, fs1, ps, bs, heq, hse, _, hall, hlens, _, _⟩ :=
    splitLoop_run env w fuel f fs [] [] h hh hfit hB hfuel hmid
  have hp := blockCount_pos hB hL
  have hbl : bs.length = blockCount (f.byteCounter w) f.blockSize := by
    have := congrArg List.length hlens
    rw [List.length_map, chunkLens_length] at this
    omega
  refine ⟨f1, fs1, ps, bs, by simpa [split] using heq, ?_, hbl, ?_, hlens, ?_, hse⟩
  · rw [hall.length_eq, hbl]
  · intro k hk
    rw [hlens]
    exact chunkLens_getElem? hB hL k hk
  · rw [hlens]
    exact chunkLens_sum hB

/-- A range of 4 bytes and blocks of 2 bytes: the first read fails and the worker records
no part, not 2. -/
theorem split_block_chunking_counterexample :
    (split brokenReadEnv 5 (midSplit 4) demoFS 0).map (fun r => r.2.2.1.length) = some 0 ∧
      blockCount 4 2 = 2 := by
  decide

theorem scenarioSource_length : scenarioSource.length = 1000000 :=
  List.length_replicate _ _

theorem scenario_readFile : readFile scenarioFS scenarioSplit.fileName = some scenarioSource := by
  have : cleanPath "big" = "big" := by decide
  simp [readFile, scenarioFS, scenarioSplit, this]

/-- The scenario of 1,000,000 bytes, blocks of 300,000 bytes and 3 workers: ranges of
333333, 333333 and 333334 bytes, blocks of 300000 + 33333, 300000 + 33333 and 300000 + 33334
bytes, 6 parts. -/
theorem split_block_chunking_witness :
    ∃ f0 f1 f2 f3 fs1 fs2 fs3 ps0 ps1 ps2 bs0 bs1 bs2,
      assignRanges idealEnv scenarioFS scenarioSplit = (f0, none) ∧
      f0.byteCounter 0 = 333333 ∧ f0.byteCounter 1 = 333333 ∧ f0.byteCounter 2 = 333334 ∧
      split idealEnv 1000001 f0 scenarioFS 0 = some (f1, fs1, ps0, bs0) ∧
      bs0.map List.length = [300000, 33333] ∧
      split idealEnv 1000001 f1 fs1 1 = some (f2, fs2, ps1, bs1) ∧
      bs1.map List.length = [300000, 33333] ∧
      split idealEnv 1000001 f2 fs2 2 = some (f3, fs3, ps2, bs2) ∧
      bs2.map List.length = [300000, 33334] ∧
      ps0.length + ps1.length + ps2.length = 6 := by
  obtain ⟨f0, ha, hso, _, hslots⟩ :=
    assignRanges_spec idealEnv scenarioFS scenarioSource scenarioSplit (by decide)
      scenario_readFile
      (fun _ _ => rfl)
  have hb0 : f0.blockSize = 300000 := hso.2.2.2.2.1
  have hfull : ∀ w start L B, NoMidReadError idealEnv w start L B := fun _ _ _ _ _ _ => rfl
  obtain ⟨hh0, hc0⟩ := hslots 0 (by decide)
  obtain ⟨hh1, hc1⟩ := hslots 1 (by decide)
  obtain ⟨hh2, hc2⟩ := hslots 2 (by decide)
  have e0 : f0.byteCounter 0 = 333333 := by rw [hc0]; decide
  have e1 : f0.byteCounter 1 = 333333 := by rw [hc1]; decide
  have e2 : f0.byteCounter 2 = 333334 := by rw [hc2]; decide
  have p0 : (0 : Nat) * (scenarioSplit.size / scenarioSplit.workers) = 0 := by decide
  have p1 : (1 : Nat) * (scenarioSplit.size / scenarioSplit.workers) = 333333 := by decide
  have p2 : (2 : Nat) * (scenarioSplit.size / scenarioSplit.workers) = 666666 := by decide
  rw [p0] at hh0
  rw [p1] at hh1
  rw [p2] at hh2
  have k1 : blockCount 333333 300000 = 2 := by decide
  have k2 : blockCount 333334 300000 = 2 := by decide
  obtain ⟨f1, fs1, ps0, bs0, hs0, hl0, _, _, hlen0, _, hse0⟩ :=
    split_block_chunking idealEnv 1000001 f0 scenarioFS 0 _ hh0
      (by rw [e0, scenarioSource_length]; decide) (by rw [e0]; decide) (by rw [hb0]; decide) (by rw [e0]; decide)
      (hfull _ _ _ _)
  have hb1 : f1.blockSize = 300000 := by rw [hse0.2.2.2.2.1, hb0]
  obtain ⟨c1, _, d1⟩ := hse0.2.2.2.2.2.2.2 1 (by decide)
  obtain ⟨c2, _, d2⟩ := hse0.2.2.2.2.2.2.2 2 (by decide)
  rw [e1] at c1
  rw [e2] at c2
  rw [hh1] at d1
  rw [hh2] at d2
  obtain ⟨f2, fs2, ps1, bs1, hs1, hl1, _, _, hlen1, _, hse1⟩ :=
    split_block_chunking idealEnv 1000001 f1 fs1 1 _ d1
      (by rw [c1, scenarioSource_length]; decide) (by rw [c1]; decide) (by rw [hb1]; decide) (by rw [c1]; decide)
      (hfull _ _ _ _)
  have hb2 : f2.blockSize = 300000 := by rw [hse1.2.2.2.2.1, hb1]
  obtain ⟨c3, _, d3⟩ := hse1.2.2.2.2.2.2.2 2 (by decide)
  rw [c2] at c3
  rw [d2] at d3
  obtain ⟨f3, fs3, ps2, bs2, hs2, hl2, _, _, hlen2, _, _⟩ :=
    split_block_chunking idealEnv 1000001 f2 fs2 2 _ d3
      (by rw [c3, scenarioSource_length]) (by rw [c3]; decide) (by rw [hb2]; decide) (by rw [c3]; decide)
      (hfull _ _ _ _)
  rw [e0, hb0, k1] at hl0 hlen0
  rw [c1, hb1, k1] at hl1 hlen1
  rw [c3, hb2, k2] at hl2 hlen2
  refine ⟨f0, f1, f2, f3, fs1, fs2, fs3, ps0, ps1, ps2, bs0, bs1, bs2, ha, e0, e1, e2, hs0,
    ?_, hs1, ?_, hs2, ?_, ?_⟩
  · rw [hlen0]; decide
  · rw [hlen1]; decide
  · rw [hlen2]; decide
  · rw [hl0, hl1, hl2]

/-! ## The last block of a range -/

/-- C10 (final-block error masking): when the byte counter of a worker is at most the
block size, so that the next call of `readNextBlock` brings it to 0, that call returns the
error `EOP` whatever the read did, and the loop of `split` appends exactly one part entry and
stops; a worker whose whole range is at most the block size records exactly one part entry. -/
theorem final_block_error_masked (env : Env) (fuel : Nat) (f : FileSplit) (fs : FS) (w : Nat)
    (hc : f.byteCounter w ≤ f.blockSize) :
    (readNextBlock env f w).1.byteCounter w = 0 ∧
      (readNextBlock env f w).2.2.2 = some "EOP" ∧
      (∀ (ps : List part) (bs : List (List Byte)),
        ∃ f1 fs1 p, splitLoop env w (fuel + 1) f fs ps bs =
          some (f1, fs1, ps ++ [p], bs ++ [(readNextBlock env f w).2.1])) ∧
      ∃ f1 fs1 p b, split env (fuel + 1) f fs w = some (f1, fs1, [p], [b]) := by
  have hcnt : (readNextBlock env f w).1.byteCounter w = 0 := by
    rw [readNextBlock_counter]; omega
  refine ⟨hcnt, readNextBlock_err_last env f w hcnt, ?_, ?_⟩
  · intro ps bs
    obtain ⟨f1, fs1, p, heq, _⟩ := splitLoop_last env w fuel f fs ps bs hc
    exact ⟨f1, fs1, p, heq⟩
  · obtain ⟨f1, fs1, p, heq, _⟩ := splitLoop_last env w fuel f fs [] [] hc
    exact ⟨f1, fs1, p, _, by simpa [split] using heq⟩

/-- A range of 2 bytes and blocks of 2 bytes: the read fails, the error returned is `EOP`
and the worker records one part. -/
theorem final_block_error_masked_witness :
    (readNextBlock brokenReadEnv (midSplit 2) 0).2.2.2 = some "EOP" ∧
      ∃ f1 fs1 p b, split brokenReadEnv 1 (midSplit 2) demoFS 0 = some (f1, fs1, [p], [b]) :=
  have h := final_block_error_masked brokenReadEnv 0 (midSplit 2) demoFS 0 (by decide)
  ⟨h.2.1, h.2.2.2⟩

/-! ## Ranges of length zero -/

/-- Workers whose byte counters are at most the block size record one part entry each,
for a block as long as the counter. -/
theorem runWorkers_short (env : Env) (fuel : Nat) :
    ∀ (n k : Nat) (f : FileSplit) (fs : FS),
      (∀ j, j < n → f.byteCounter (k + j) ≤ f.blockSize) →
      ∃ f1 fs1 lps lbs,
        runWorkers env (fuel + 1) n k f fs = some (f1, fs1, lps, lbs) ∧
          SameOutside k (k + n) f f1 ∧
          lps.map List.length = List.replicate n 1 ∧
          lbs.map (fun bs => bs.map List.length) =
            (List.range n).map (fun j => [f.byteCounter (k + j)]) := by
  intro n
  induction n with
  | zero =>
    intro k f fs _
    exact ⟨f, fs, [], [], rfl, sameOutside_refl _ _ f, rfl, rfl⟩
  | succ n ih =>
    intro k f fs hc
    have hc0 : f.byteCounter k ≤ f.blockSize := by simpa using hc 0 (by omega)
    obtain ⟨f1, fs1, p, heq, hse, _, _, _⟩ := splitLoop_last env k fuel f fs [] [] hc0
    have hbs : f1.blockSize = f.blockSize := hse.2.2.2.2.1
    have hframe : ∀ j, f1.byteCounter (k + 1 + j) = f.byteCounter (k + 1 + j) := fun j =>
      (hse.2.2.2.2.2.2.2 (k + 1 + j) (by omega)).1
    obtain ⟨f2, fs2, lps, lbs, heq2, hso, hl, hb⟩ :=
      ih (k + 1) f1 fs1 (by
        intro j hj
        rw [hframe j, hbs]
        have := hc (j + 1) (by omega)
        rwa [show k + (j + 1) = k + 1 + j by omega] at this)
    refine ⟨f2, fs2, [p] :: lps, [(readNextBlock env f k).2.1] :: lbs, ?_, ?_, ?_, ?_⟩
    · simp only [runWorkers, split, heq, heq2, List.nil_append]
    · exact sameOutside_trans (sameExcept_toOutside hse) (by rwa [show k + (n + 1) = k + 1 + n by omega]) (by omega)
        (by omega)
    · simp [hl, List.replicate_succ]
    · rw [map_range_succ, List.map_cons, hb]
      congr 1
      · simp [readNextBlock_length]
        omega
      · apply List.map_congr_left
        intro j _
        rw [show k + (j + 1) = k + 1 + j by omega, hframe j]

/-- A worker with a range of length 0 records one part, and a file of 0 bytes split by 3
workers gives 3 parts and a manifest of 3 parts. -/
theorem zero_range_counterexample :
    (split idealEnv 1 (midSplit 0) demoFS 0).map (fun r => r.2.2.1.length) = some 1 ∧
      (Split idealEnv 1 zeroSplit zeroFS).map
        (fun o => (o.err, o.fsplit.parts.length, (GetManifest o.fsplit).Parts.length)) =
        some (none, 3, 3) := by
  decide

/-- C7, as amended (zero-length range): a worker whose range has length 0 records exactly
one part entry, for an empty block, and no error; splitting a 0-byte file with `W ≥ 1`
workers returns with `W` part entries, one empty block per worker, and a manifest of `W`
parts, without error when integrity checking is skipped. -/
theorem zero_range_one_part (env : Env) (fuel : Nat) (fs : FS) (src : List Byte)
    (f : FileSplit) (hW : 1 ≤ f.workers) (hsize : f.size = 0) (hfresh : f.parts = [])
    (hsrc : readFile fs f.fileName = some src)
    (hopen : ∀ w, w < f.workers → env.openErr w = none) :
    (∀ (g : FileSplit) (gs : FS) (w : Nat), g.byteCounter w = 0 →
        ∃ g1 gs1 p, split env (fuel + 1) g gs w = some (g1, gs1, [p], [[]])) ∧
      ∃ out, Split env (fuel + 1) f fs = some out ∧
        out.fsplit.parts.length = f.workers ∧
        out.blocks = List.replicate f.workers [] ∧
        (GetManifest out.fsplit).Parts.length = f.workers ∧
        (f.hash = "" → out.err = none) := by
  constructor
  · intro g gs w hz
    obtain ⟨g1, gs1, p, heq, _⟩ := splitLoop_last env w fuel g gs [] [] (by omega)
    have hlen := readNextBlock_length env g w
    rw [hz, Nat.min_zero] at hlen
    rw [List.length_eq_zero] at hlen
    rw [hlen] at heq
    exact ⟨g1, gs1, p, by simpa [split] using heq⟩
  · obtain ⟨f1, ha, hso, _, hslots⟩ := assignRanges_spec env fs src f hW hsrc hopen
    have hzero : ∀ j, j < f.workers → f1.byteCounter j = 0 := by
      intro j hj
      rw [(hslots j hj).2, hsize]
      simp
    obtain ⟨f2, fs2, lps, lbs, hr, hso2, hl, hb⟩ :=
      runWorkers_short env fuel f.workers 0 f1 fs (by
        intro j hj
        rw [Nat.zero_add, hzero j hj]
        exact Nat.zero_le _)
    obtain ⟨out, hs, hfs, hblocks, herr, _⟩ :=
      Split_eq env (fuel + 1) f f1 f2 fs fs2 lps lbs hW ha hr
    have hparts : out.fsplit.parts = numbered 0 lps.flatten := by
      rw [hfs]
      have : f2.parts = [] := by rw [hso2.2.2.2.2.2.2.1, hso.2.2.2.2.2.2.1, hfresh]
      simp [this]
    have hplen : out.fsplit.parts.length = f.workers := by
      rw [hparts, numbered_length, List.length_flatten, hl]
      simp
    have hb2 : lbs.map (fun bs => bs.map List.length) = List.replicate f.workers [0] := by
      rw [hb, List.eq_replicate_iff]
      refine ⟨by simp, ?_⟩
      intro x hx
      obtain ⟨j, hj, rfl⟩ := List.mem_map.mp hx
      rw [Nat.zero_add, hzero j (List.mem_range.mp hj)]
    have hlbs : lbs = List.replicate f.workers [[]] := by
      rw [List.eq_replicate_iff]
      refine ⟨by simpa using congrArg List.length hb2, ?_⟩
      intro bs hbs
      have hmem : bs.map List.length ∈ lbs.map (fun bs => bs.map List.length) :=
        List.mem_map_of_mem _ hbs
      rw [hb2] at hmem
      have h0 := List.eq_of_mem_replicate hmem
      cases bs with
      | nil => simp at h0
      | cons b rest =>
        simp only [List.map_cons, List.cons.injEq, List.length_eq_zero, List.map_eq_nil_iff] at h0
        rw [h0.1, h0.2]
    refine ⟨out, hs, hplen, ?_, ?_, ?_⟩
    · rw [hblocks, hlbs]
      simp
    · simp [GetManifest, hplen]
    · intro hh
      have : f2.hash = "" := by rw [hso2.2.2.2.2.2.1, hso.2.2.2.2.2.1, hh]
      rw [herr]
      simp [this]

/-- A file of 0 bytes split by 3 workers: 3 parts, 3 empty blocks, no error. -/
theorem zero_range_one_part_witness :
    ∃ out, Split idealEnv 1 zeroSplit zeroFS = some out ∧
      out.fsplit.parts.length = 3 ∧ out.blocks = [[], [], []] ∧ out.err = none := by
  obtain ⟨out, hs, hp, hb, _, he⟩ :=
    (zero_range_one_part idealEnv 0 zeroFS [] zeroSplit (by decide) rfl rfl (by decide)
      (fun _ _ => rfl)).2
  exact ⟨out, hs, hp, hb, he rfl⟩

/-! ## Failures -/

/-- C6 (all-or-nothing failure), evaluated where the code breaks it: with integrity
checking skipped, a worker whose first read fails records nothing, and a worker whose part
files cannot be created records entries with empty names; in both runs `Split` returns no
error and the manifest file is written. -/
theorem Split_swallows_worker_failure :
    (match NewThenSplit brokenReadEnv 6 demoFS skipOptions with
      | .ok (some o) =>
        some (o.err, o.fsplit.parts, readFile o.fs (manifestFileName brokenReadEnv o.fsplit))
      | _ => none) = some (none, [], some []) ∧
    (match NewThenSplit brokenWriteEnv 6 demoFS skipOptions with
      | .ok (some o) =>
        some (o.err, o.fsplit.parts, readFile o.fs (manifestFileName brokenWriteEnv o.fsplit))
      | _ => none) =
      some (none,
        [{ order := 0, fileName := "", hash := "" }, { order := 1, fileName := "", hash := "" },
          { order := 2, fileName := "", hash := "" }],
        some [0, 1, 2]) := by
  decide

/-- C5 (round-trip integrity), evaluated where the code breaks it: with integrity
checking enabled and the split folder `out/`, every read and write succeeds, the part files
are in `out/`, `verifySplit` looks for them in the current directory, and `Split` returns
its error. -/
theorem Split_verify_ignores_folder :
    (match NewThenSplit idealEnv 6 demoFS outFolderOptions with
      | .ok (some o) =>
        some (o.err, o.fsplit.parts.map (fun p => p.fileName),
          readFile o.fs "out/a.0.1.3x2.part", readFile o.fs "a.0.1.3x2.part")
      | _ => none) =
      some (some "open a.0.1.3x2.part: no such file or directory",
        ["a.0.1.3x2.part", "a.1.1.7x2.part", "a.1.2.5x1.part"], some [1, 2], none) := by
  decide

/-! ## `New` -/

/-- A worker count of 0 and a block size of -5 are accepted: `New` returns a `FileSplit`
with 1 worker and blocks of 524288 bytes. -/
theorem New_counterexample :
    (match New idealEnv demoFS badOptions with
      | some (.ok f) => some (f.workers, f.blockSize)
      | _ => none) = some (1, 524288) := by
  decide

/-- The function `New` on a source file that exists and, with integrity checking enabled, can
be read, when the per-worker slices can be made: it returns a fresh `FileSplit` with the defaults
filled in. -/
theorem New_ok (env : Env) (fs : FS) (options : NewFileSplit) (content : List Byte)
    (hW : IsInt64 options.Workers) (hB : IsInt64 options.BlockSize)
    (h : readFile fs options.FileName = some content)
    (hor : options.SkipCheckDigest = true ∨ env.readAllErr options.FileName = none)
    (hmake : makeSlice env (if options.Workers > 1 then options.Workers.toNat else 1) = true) :
    ∃ f, New env fs options = some (.ok f) ∧
      f.workers = (if options.Workers > 1 then options.Workers.toNat else 1) ∧
      f.blockSize = (if options.BlockSize > 1 then options.BlockSize.toNat else 524288) ∧
      1 ≤ f.workers ∧ 2 ≤ f.blockSize ∧
      f.splitFolder = (if options.SplitFolder ≠ "" then options.SplitFolder else "./") ∧
      f.fileName = options.FileName ∧ f.size = content.length ∧ f.parts = [] ∧
      f.hash = (if options.SkipCheckDigest = true then "" else env.digest content) ∧
      IsInt64 f.workers ∧ IsInt64 f.blockSize := by
  have hw : 1 ≤ (if options.Workers > 1 then options.Workers.toNat else 1) := by
    split <;> omega
  have hb : 2 ≤ (if options.BlockSize > 1 then options.BlockSize.toNat else 524288) := by
    split <;> omega
  have hwr : IsInt64 ((if options.Workers > 1 then options.Workers.toNat else 1 : Nat) : Int) := by
    unfold IsInt64 at hW ⊢
    split <;> omega
  have hbr :
      IsInt64 ((if options.BlockSize > 1 then options.BlockSize.toNat else 524288 : Nat) : Int) := by
    unfold IsInt64 at hB ⊢
    split <;> omega
  by_cases hs : options.SkipCheckDigest = true
  · refine ⟨⟨(if options.SplitFolder ≠ "" then options.SplitFolder else "./"),
              options.FileName,
              (if options.Workers > 1 then options.Workers.toNat else 1),
              content.length,
              (if options.BlockSize > 1 then options.BlockSize.toNat else 524288),
              "", fun _ => 0, fun _ => 0, fun _ => none, []⟩,
      ?_, rfl, rfl, hw, hb, rfl, rfl, rfl, rfl, by simp [hs], hwr, hbr⟩
    simp [New, h, hs, hmake]
  · have he : env.readAllErr options.FileName = none := by
      cases hor with
      | inl h1 => exact absurd h1 hs
      | inr h2 => exact h2
    simp only [Bool.not_eq_true] at hs
    refine ⟨⟨(if options.SplitFolder ≠ "" then options.SplitFolder else "./"),
              options.FileName,
              (if options.Workers > 1 then options.Workers.toNat else 1),
              content.length,
              (if options.BlockSize > 1 then options.BlockSize.toNat else 524288),
              env.digest content, fun _ => 0, fun _ => 0, fun _ => none, []⟩,
      ?_, rfl, rfl, hw, hb, rfl, rfl, rfl, rfl, by simp [hs], hwr, hbr⟩
    simp [New, h, hs, hmake, checkDigest, readAll, he, digest]

/-- C8, as amended (configuration): for every options value, with `Workers` and `BlockSize`
in the range of their Go types, whose `BlockSize` or `Workers` is non-positive, `New` returns
a `FileSplit` and no error when the source file exists, can be read if integrity checking is
enabled, and the per-worker slices can be made; a non-positive `Workers` has become 1 worker
and a non-positive `BlockSize` blocks of 524288 bytes, a positive `Workers` and a `BlockSize`
above 1 are kept, and both stored values are in the range of their Go types.  When the
source file is missing `New` returns an error and no `FileSplit`. -/
theorem New_defaults_and_errors (env : Env) (fs : FS) (options : NewFileSplit)
    (hW : IsInt64 options.Workers) (hB : IsInt64 options.BlockSize) :
    (readFile fs options.FileName = none →
      New env fs options = some (.error ("file " ++ options.FileName ++ " not found"))) ∧
    (options.BlockSize ≤ 0 ∨ options.Workers ≤ 0 →
      ∀ content, readFile fs options.FileName = some content →
      (options.SkipCheckDigest = true ∨ env.readAllErr options.FileName = none) →
      makeSlice env (if options.Workers > 1 then options.Workers.toNat else 1) = true →
      ∃ f, New env fs options = some (.ok f) ∧
        (options.Workers ≤ 0 → f.workers = 1) ∧
        (0 < options.Workers → (f.workers : Int) = options.Workers) ∧
        (options.BlockSize ≤ 0 → f.blockSize = 524288) ∧
        (1 < options.BlockSize → (f.blockSize : Int) = options.BlockSize) ∧
        f.fileName = options.FileName ∧ f.size = content.length ∧ f.parts = [] ∧
        IsInt64 f.workers ∧ IsInt64 f.blockSize) := by
  refine ⟨?_, ?_⟩
  · intro h
    simp [New, h]
  · intro _ content h hor hmake
    obtain ⟨f, hf, hw, hb, _, _, _, hfn, hsz, hp, _, hwr, hbr⟩ :=
      New_ok env fs options content hW hB h hor hmake
    refine ⟨f, hf, ?_, ?_, ?_, ?_, hfn, hsz, hp, hwr, hbr⟩
    · intro h0
      rw [hw, if_neg (by omega)]
    · intro h0
      rw [hw]
      split <;> omega
    · intro h0
      rw [hb, if_neg (by omega)]
    · intro h0
      rw [hb, if_pos (by omega)]
      omega

/-- The defaults of `New` for a worker count of 0 and a block size of -5. -/
theorem New_defaults_and_errors_witness :
    ∃ f, New idealEnv demoFS badOptions = some (.ok f) ∧ f.workers = 1 ∧
      f.blockSize = 524288 := by
  obtain ⟨f, hf, hw, _, hb, _⟩ :=
    (New_defaults_and_errors idealEnv demoFS badOptions ⟨by decide, by decide⟩
      ⟨by decide, by decide⟩).2 (Or.inl (by decide)) [1, 2, 3, 4, 5] (by decide)
      (Or.inr rfl) (by decide)
  exact ⟨f, hf, hw (by decide), hb (by decide)⟩

/-! ## Part file names -/

theorem toDigitsCore_eq_digits :
    ∀ (fuel n : Nat) (ds : List Char), n < fuel → 0 < n →
      Nat.toDigitsCore 10 fuel n ds = ((Nat.digits 10 n).reverse.map Nat.digitChar) ++ ds := by
  intro fuel
  induction fuel with
  | zero => intro n ds h; omega
  | succ fuel ih =>
    intro n ds hlt hpos
    rw [Nat.digits_def' (by decide) hpos]
    simp only [Nat.toDigitsCore]
    by_cases h0 : n / 10 = 0
    · simp [h0]
    · rw [if_neg h0, ih (n / 10) _ (by omega) (by omega)]
      simp

theorem repr_data_pos (n : Nat) (hpos : 0 < n) :
    (Nat.repr n).data = (Nat.digits 10 n).reverse.map Nat.digitChar := by
  simp [Nat.repr, Nat.toDigits, List.asString, toDigitsCore_eq_digits (n + 1) n [] (by omega) hpos]

theorem digitChar_inj : ∀ a, a < 10 → ∀ b, b < 10 → Nat.digitChar a = Nat.digitChar b → a = b := by
  decide

theorem digitChar_plain : ∀ a, a < 10 →
    Nat.digitChar a ≠ '.' ∧ Nat.digitChar a ≠ '/' := by
  decide

theorem map_digitChar_inj :
    ∀ (l1 l2 : List Nat), (∀ d ∈ l1, d < 10) → (∀ d ∈ l2, d < 10) →
      l1.map Nat.digitChar = l2.map Nat.digitChar → l1 = l2 := by
  intro l1
  induction l1 with
  | nil =>
    intro l2 _ _ h
    cases l2 with
    | nil => rfl
    | cons b t => simp at h
  | cons a t ih =>
    intro l2 h1 h2 h
    cases l2 with
    | nil => simp at h
    | cons b t2 =>
      simp only [List.map_cons, List.cons.injEq] at h
      have hab := digitChar_inj a (h1 a (by simp)) b (h2 b (by simp)) h.1
      have := ih t2 (fun d hd => h1 d (by simp [hd])) (fun d hd => h2 d (by simp [hd])) h.2
      rw [hab, this]

theorem repr_injective (a b : Nat) (h : Nat.repr a = Nat.repr b) : a = b := by
  have hdig : ∀ n d, d ∈ (Nat.digits 10 n).reverse → d < 10 := fun n d hd =>
    Nat.digits_lt_base (by decide) (List.mem_reverse.mp hd)
  have hd := congrArg String.data h
  have key : ∀ n, 0 < n → (Nat.repr 0).data = (Nat.repr n).data → False := by
    intro n hn h0
    rw [repr_data_pos n hn] at h0
    have h1 : (Nat.repr 0).data = [0].map Nat.digitChar := by decide
    rw [h1] at h0
    have h2 := map_digitChar_inj _ _ (by simp) (hdig n) h0
    have h3 : Nat.digits 10 n = [0] := by
      have := congrArg List.reverse h2
      simpa using this.symm
    have h4 := Nat.ofDigits_digits 10 n
    rw [h3] at h4
    simp [Nat.ofDigits] at h4
    omega
  rcases Nat.eq_zero_or_pos a with ha | ha
  · rcases Nat.eq_zero_or_pos b with hb | hb
    · rw [ha, hb]
    · subst ha
      exact (key b hb hd).elim
  · rcases Nat.eq_zero_or_pos b with hb | hb
    · subst hb
      exact (key a ha hd.symm).elim
    · rw [repr_data_pos a ha, repr_data_pos b hb] at hd
      have h2 := map_digitChar_inj _ _ (hdig a) (hdig b) hd
      have h3 : Nat.digits 10 a = Nat.digits 10 b := by
        have := congrArg List.reverse h2
        simpa using this
      have := congrArg (Nat.ofDigits 10) h3
      rwa [Nat.ofDigits_digits, Nat.ofDigits_digits] at this

theorem repr_plain (n : Nat) : ∀ c ∈ (Nat.repr n).data, c ≠ '.' ∧ c ≠ '/' := by
  rcases Nat.eq_zero_or_pos n with h | h
  · subst h
    decide
  · rw [repr_data_pos n h]
    intro c hc
    obtain ⟨d, hd, rfl⟩ := List.mem_map.mp hc
    exact digitChar_plain d (Nat.digits_lt_base (by decide) (List.mem_reverse.mp hd))

theorem Itoa_natCast (n : Nat) : Itoa (n : Int) = Nat.repr n := rfl

theorem append_dot_inj :
    ∀ (a a2 x x2 : List Char), '.' ∉ a → '.' ∉ a2 → a ++ '.' :: x = a2 ++ '.' :: x2 →
      a = a2 ∧ x = x2 := by
  intro a
  induction a with
  | nil =>
    intro a2 x x2 _ h2 h
    cases a2 with
    | nil => simpa using h
    | cons c t =>
      simp only [List.nil_append, List.cons_append, List.cons.injEq] at h
      exact absurd (by simp [← h.1]) h2
  | cons c t ih =>
    intro a2 x x2 h1 h2 h
    cases a2 with
    | nil =>
      simp only [List.nil_append, List.cons_append, List.cons.injEq] at h
      exact absurd (by simp [h.1]) h1
    | cons c2 t2 =>
      simp only [List.cons_append, List.cons.injEq] at h
      have := ih t2 x x2 (fun hm => h1 (by simp [hm])) (fun hm => h2 (by simp [hm])) h.2
      exact ⟨by rw [h.1, this.1], this.2⟩

theorem partFileName_data (fileName : String) (w b : Nat) (d : String) :
    (partFileName fileName w b d).data =
      fileName.data ++ '.' :: ((Nat.repr w).data ++ '.' :: ((Nat.repr b).data ++
        '.' :: (d.data ++ ".part".data))) := by
  simp [partFileName, Itoa_natCast, String.data_append]

theorem partFileName_inj (fileName : String) (w1 b1 w2 b2 : Nat) (d1 d2 : String)
    (h : partFileName fileName w1 b1 d1 = partFileName fileName w2 b2 d2) :
    w1 = w2 ∧ b1 = b2 := by
  have hd := congrArg String.data h
  rw [partFileName_data, partFileName_data] at hd
  have h1 := List.append_cancel_left hd
  simp only [List.cons.injEq, true_and] at h1
  have hw := append_dot_inj _ _ _ _ (fun hm => (repr_plain w1 _ hm).1 rfl)
    (fun hm => (repr_plain w2 _ hm).1 rfl) h1
  have hb := append_dot_inj _ _ _ _ (fun hm => (repr_plain b1 _ hm).1 rfl)
    (fun hm => (repr_plain b2 _ hm).1 rfl) hw.2
  exact ⟨repr_injective w1 w2 (String.ext hw.1), repr_injective b1 b2 (String.ext hb.1)⟩

/-- C9 (no file name collisions): the part file name `savePartialLocal` returns is
`fileName.workerIndex.blockIndex.digest.part`, and two such names for the same source file and
different pairs of worker index and block index differ, whatever the digests are. -/
theorem partFileName_no_collision (fileName : String) (w1 b1 w2 b2 : Nat) (d1 d2 : String)
    (hne : (w1, b1) ≠ (w2, b2)) :
    partFileName fileName w1 b1 d1 =
        fileName ++ "." ++ Itoa w1 ++ "." ++ Itoa b1 ++ "." ++ d1 ++ ".part" ∧
      (∀ (env : Env) (f : FileSplit) (fs fs1 : FS) (content : List Byte) (n : Nat)
          (name hash : String),
        savePartialLocal env f fs w1 b1 content n = (fs1, name, hash, none) →
          name = partFileName f.fileName w1 b1 (digest env content) ∧
            hash = digest env content) ∧
      partFileName fileName w1 b1 d1 ≠ partFileName fileName w2 b2 d2 := by
  refine ⟨rfl, ?_, ?_⟩
  · intro env f fs fs1 content n name hash h
    unfold savePartialLocal at h
    cases hw : env.write w1 b1 with
    | openFail msg => simp [hw] at h
    | wrote k err =>
      cases err with
      | some e => simp [hw] at h
      | none =>
        by_cases hk : min k content.length = n
        · simp [hw, hk] at h
          exact ⟨h.2.1.symm, h.2.2.symm⟩
        · simp [hw, hk] at h
  · intro h
    obtain ⟨hw, hb⟩ := partFileName_inj fileName w1 b1 w2 b2 d1 d2 h
    exact hne (by rw [hw, hb])

/-- Block 11 of worker 1 and block 1 of worker 11 have different part file names. -/
theorem partFileName_no_collision_witness :
    partFileName "a" 1 11 "d" ≠ partFileName "a" 11 1 "d" :=
  (partFileName_no_collision "a" 1 11 11 1 "d" "d" (by decide)).2.2

/-! ## Paths of part files -/

theorem stripDotSlash_cons (seen : Bool) (c d : Char) (rest : List Char) :
    stripDotSlash seen (c :: d :: rest) =
      if seen = true ∧ c = '/' then stripDotSlash true (d :: rest)
      else if c = '.' ∧ d = '/' then stripDotSlash true rest
      else c :: d :: rest := by
  rw [stripDotSlash]

theorem stripDotSlash_single (seen : Bool) (c : Char) :
    stripDotSlash seen [c] = if seen = true ∧ c = '/' then [] else [c] := by
  rw [stripDotSlash]

theorem stripDotSlash_append (c : Char) (t : List Char) (hc : c ≠ '/') :
    ∀ (n : Nat) (seen : Bool) (p : List Char), p.length = n →
      stripDotSlash seen (p ++ '.' :: c :: t) = stripDotSlash seen p ++ '.' :: c :: t := by
  have hdot : ¬ ('.' = '/') := by decide
  have hnil : ∀ seen : Bool, stripDotSlash seen ('.' :: c :: t) = '.' :: c :: t := by
    intro seen
    rw [stripDotSlash_cons, if_neg (fun h => hdot h.2), if_neg (fun h => hc h.2)]
  intro n
  induction n using Nat.strong_induction_on with
  | _ n ih =>
    intro seen p hp
    match p, hp with
    | [], _ =>
      rw [List.nil_append, hnil]
      simp [stripDotSlash]
    | [x], _ =>
      show stripDotSlash seen (x :: '.' :: c :: t) = stripDotSlash seen [x] ++ '.' :: c :: t
      rw [stripDotSlash_cons, stripDotSlash_single]
      by_cases h : seen = true ∧ x = '/'
      · rw [if_pos h, if_pos h, hnil]
        rfl
      · rw [if_neg h, if_neg h, if_neg (fun h2 => hdot h2.2)]
        rfl
    | x :: y :: rest, hp =>
      show stripDotSlash seen (x :: y :: (rest ++ '.' :: c :: t)) =
        stripDotSlash seen (x :: y :: rest) ++ '.' :: c :: t
      rw [stripDotSlash_cons, stripDotSlash_cons]
      have hlen : (x :: y :: rest).length = n := hp
      simp only [List.length_cons] at hlen
      by_cases h : seen = true ∧ x = '/'
      · rw [if_pos h, if_pos h]
        exact ih (y :: rest).length (by simp only [List.length_cons]; omega) true (y :: rest) rfl
      · rw [if_neg h, if_neg h]
        by_cases h2 : x = '.' ∧ y = '/'
        · rw [if_pos h2, if_pos h2]
          exact ih rest.length (by omega) true rest rfl
        · rw [if_neg h2, if_neg h2]
          rfl

theorem repr_data_cons (n : Nat) : ∃ c t, (Nat.repr n).data = c :: t ∧ c ≠ '/' ∧ c ≠ '.' := by
  cases h : (Nat.repr n).data with
  | nil =>
    exfalso
    rcases Nat.eq_zero_or_pos n with h0 | h0
    · subst h0
      revert h
      decide
    · rw [repr_data_pos n h0] at h
      have h1 : Nat.digits 10 n = [] := by simpa using h
      have := Nat.digits_eq_nil_iff_eq_zero.mp h1
      omega
  | cons c t =>
    have := repr_plain n c (by rw [h]; simp)
    exact ⟨c, t, rfl, this.2, this.1⟩

/-- The key of a part file is the part file name built on the key of the source name. -/
theorem cleanPath_partFileName (pre fileName : String) (w b : Nat) (d : String) :
    cleanPath (pre ++ partFileName fileName w b d) =
      partFileName (cleanPath (pre ++ fileName)) w b d := by
  obtain ⟨c, t, hct, hc, _⟩ := repr_data_cons w
  apply String.ext
  rw [partFileName_data]
  simp only [cleanPath, String.data_append, partFileName_data, hct, List.cons_append]
  rw [← List.append_assoc]
  exact stripDotSlash_append c _ hc _ false _ rfl

/-! ## Part files in the file system -/

theorem readFile_writeFile_same (fs : FS) (p q : String) (c : List Byte)
    (h : cleanPath q = cleanPath p) : readFile (writeFile fs p c) q = some c := by
  simp [writeFile, readFile, h]

theorem readFile_writeFile_ne (fs : FS) (p q : String) (c : List Byte)
    (h : cleanPath p ≠ cleanPath q) : readFile (writeFile fs p c) q = readFile fs q := by
  simp [writeFile, readFile, h]

theorem savePartialLocal_full (env : Env) (f : FileSplit) (fs : FS) (w b : Nat)
    (content : List Byte) (hw : FullWrites env f.blockSize) (hlen : content.length ≤ f.blockSize) :
    savePartialLocal env f fs w b content content.length =
      (writeFile fs (f.splitFolder ++ partFileName f.fileName w b (env.digest content)) content,
        partFileName f.fileName w b (env.digest content), env.digest content, none) := by
  obtain ⟨n, hn, hwr⟩ := hw w b
  have hmin : min n content.length = content.length := by omega
  simp [savePartialLocal, hwr, hmin, digest]

theorem stored_write (env : Env) (fileName folder pre : String) (fs : FS) (w id : Nat)
    (c : List Byte) (hfolder : cleanPath (folder ++ fileName) = cleanPath (pre ++ fileName)) :
    Stored env fileName pre
        (writeFile fs (folder ++ partFileName fileName w (id + 1) (env.digest c)) c) w (id + 1)
        { order := 0, fileName := partFileName fileName w (id + 1) (env.digest c),
          hash := env.digest c } c ∧
      ∀ (p : part) (b : List Byte), Stored env fileName pre fs w id p b →
        Stored env fileName pre
          (writeFile fs (folder ++ partFileName fileName w (id + 1) (env.digest c)) c) w
          (id + 1) p b := by
  have hkey : cleanPath (folder ++ partFileName fileName w (id + 1) (env.digest c)) =
      partFileName (cleanPath (pre ++ fileName)) w (id + 1) (env.digest c) := by
    rw [cleanPath_partFileName, hfolder]
  constructor
  · refine ⟨rfl, ?_, w, id + 1, rfl, Or.inr ⟨rfl, Nat.le_refl _⟩⟩
    apply readFile_writeFile_same
    rw [hkey, cleanPath_partFileName]
  · intro p b ⟨hh, hr, w1, k1, hn, hlt⟩
    refine ⟨hh, ?_, w1, k1, hn, ?_⟩
    · rw [readFile_writeFile_ne _ _ _ _ ?_, hr]
      rw [hkey, hn, cleanPath_partFileName]
      intro heq
      obtain ⟨e1, e2⟩ := partFileName_inj _ _ _ _ _ _ _ heq
      omega
    · omega

theorem stored_mono (env : Env) (fileName pre : String) (fs : FS) (w id w2 id2 : Nat) (p : part)
    (b : List Byte) (h : Stored env fileName pre fs w id p b)
    (hle : w < w2 ∨ (w = w2 ∧ id ≤ id2)) : Stored env fileName pre fs w2 id2 p b := by
  obtain ⟨hh, hr, w1, k1, hn, hlt⟩ := h
  exact ⟨hh, hr, w1, k1, hn, by omega⟩

/-- The loop of `split` when every read fills its block, every write stores it, and the
split folder is the current directory: every part entry it appends is stored, and so is
every entry that was stored before. -/
theorem splitLoop_stored (env : Env) (w : Nat) (pre : String) :
    ∀ (fuel : Nat) (f : FileSplit) (fs : FS) (ps : List part) (bs : List (List Byte))
      (h : Handle) (olds : List (part × List Byte)),
      f.fileHandlers w = some h → h.pos + f.byteCounter w ≤ h.data.length →
      0 < f.blockSize → f.byteCounter w < fuel → FullReads env w →
      FullWrites env f.blockSize →
      cleanPath (f.splitFolder ++ f.fileName) = cleanPath (pre ++ f.fileName) →
      (∀ x ∈ olds, Stored env f.fileName pre fs w (f.blockFileIDs w) x.1 x.2) →
      ∃ f1 fs1 ps1 bs1,
        splitLoop env w fuel f fs ps bs = some (f1, fs1, ps ++ ps1, bs ++ bs1) ∧
          List.Forall₂ (Stored env f.fileName pre fs1 w (f1.blockFileIDs w)) ps1 bs1 ∧
          (∀ x ∈ olds, Stored env f.fileName pre fs1 w (f1.blockFileIDs w) x.1 x.2) := by
  intro fuel
  induction fuel with
  | zero => intro f fs ps bs h olds _ _ _ hlt; omega
  | succ fuel ih =>
    intro f fs ps bs h olds hh hfit hB hlt hfull hwrite hfolder holds
    have hcnt := readNextBlock_counter env f w
    have hse := readNextBlock_sameExcept env f w
    have hids := readNextBlock_ids env f w
    have hlen := readNextBlock_length env f w
    obtain ⟨hhd, _⟩ := readNextBlock_handle env f w h hh
    obtain ⟨_, hn⟩ := readNextBlock_full env f w h hh hfit hfull
    have herrl := readNextBlock_err_last env f w
    have herrm := readNextBlock_err_mid env f w h hh
    rcases hr : readNextBlock env f w with ⟨f1, buf, n, err⟩
    rw [hr] at hcnt hse hids hlen hhd hn herrl herrm
    simp only at hcnt hse hids hlen hhd hn herrl herrm
    have hnl : n = buf.length := by rw [hn, hlen]
    subst hnl
    have hse2 : SameExcept w f (incBlockFileID f1 w) :=
      sameExcept_trans hse (incBlockFileID_sameExcept _ w)
    have hfn : (incBlockFileID f1 w).fileName = f.fileName := hse2.2.1
    have hsf : (incBlockFileID f1 w).splitFolder = f.splitFolder := hse2.1
    have hbs : (incBlockFileID f1 w).blockSize = f.blockSize := hse2.2.2.2.2.1
    have hid2 : (incBlockFileID f1 w).blockFileIDs w = f.blockFileIDs w + 1 := by
      simp [incBlockFileID, hids]
    have hcnt2 : (incBlockFileID f1 w).byteCounter w =
        f.byteCounter w - min f.blockSize (f.byteCounter w) := hcnt
    have hh2 : (incBlockFileID f1 w).fileHandlers w =
        some { data := h.data, pos := h.pos + buf.length, reads := h.reads + 1 } := hhd
    have hs := savePartialLocal_full env (incBlockFileID f1 w) fs w
      ((incBlockFileID f1 w).blockFileIDs w) buf (by rw [hbs]; exact hwrite)
      (by rw [hbs, hlen]; omega)
    rw [hid2, hfn, hsf] at hs
    obtain ⟨hnew, hkeep⟩ := stored_write env f.fileName f.splitFolder pre fs w (f.blockFileIDs w)
      buf hfolder
    rw [splitLoop_succ env w fuel f fs ps bs f1 buf buf.length err
      (writeFile fs (f.splitFolder ++
        partFileName f.fileName w (f.blockFileIDs w + 1) (env.digest buf)) buf)
      (partFileName f.fileName w (f.blockFileIDs w + 1) (env.digest buf)) (env.digest buf) none hr
      (by rw [hid2]; exact hs)]
    by_cases hc : f.byteCounter w ≤ f.blockSize
    · have he : err = some "EOP" := herrl (by omega)
      refine ⟨incBlockFileID f1 w,
        writeFile fs (f.splitFolder ++
          partFileName f.fileName w (f.blockFileIDs w + 1) (env.digest buf)) buf,
        [⟨0, partFileName f.fileName w (f.blockFileIDs w + 1) (env.digest buf), env.digest buf⟩],
        [buf], by simp [he], ?_, ?_⟩
      · rw [hid2]
        exact List.Forall₂.cons hnew List.Forall₂.nil
      · intro x hx
        rw [hid2]
        exact hkeep x.1 x.2 (holds x hx)
    · have hc2 : f.blockSize < f.byteCounter w := by omega
      have he : err = none := herrm hc2 hfit (hfull _ _).2
      have hmin : min f.blockSize (f.byteCounter w) = f.blockSize := by omega
      rw [hmin] at hcnt2 hlen
      obtain ⟨f2, fs2, ps2, bs2, heq, hall, hold2⟩ :=
        ih (incBlockFileID f1 w)
          (writeFile fs (f.splitFolder ++
            partFileName f.fileName w (f.blockFileIDs w + 1) (env.digest buf)) buf)
          (ps ++ [⟨0, partFileName f.fileName w (f.blockFileIDs w + 1) (env.digest buf),
            env.digest buf⟩])
          (bs ++ [buf]) _
          (olds ++ [(⟨0, partFileName f.fileName w (f.blockFileIDs w + 1) (env.digest buf),
            env.digest buf⟩, buf)])
          hh2 (by simp only [hcnt2]; omega) (by rw [hbs]; exact hB) (by rw [hcnt2]; omega)
          hfull (by rw [hbs]; exact hwrite) (by rw [hsf, hfn]; exact hfolder)
          (by
            intro x hx
            rw [hfn, hid2]
            rcases List.mem_append.mp hx with hx1 | hx1
            · exact hkeep x.1 x.2 (holds x hx1)
            · simp only [List.mem_singleton] at hx1
              subst hx1
              exact hnew)
      rw [hfn] at hall hold2
      refine ⟨f2, fs2,
        ⟨0, partFileName f.fileName w (f.blockFileIDs w + 1) (env.digest buf), env.digest buf⟩ ::
          ps2, buf :: bs2, ?_, ?_, ?_⟩
      · rw [heq]
        simp [he]
      · exact List.Forall₂.cons
          (hold2 (⟨0, partFileName f.fileName w (f.blockFileIDs w + 1) (env.digest buf),
            env.digest buf⟩, buf) (by simp)) hall
      · intro x hx
        exact hold2 x (by simp [hx])

/-- The workers when every read fills its block, every write stores it, and the split
folder is the current directory: every part entry of every worker is stored in the final
file system. -/
theorem runWorkers_stored (env : Env) (fuel : Nat) (pre : String) :
    ∀ (n k : Nat) (f : FileSplit) (fs : FS) (olds : List (part × List Byte)),
      0 < f.blockSize → (∀ j, j < n → f.byteCounter (k + j) < fuel) →
      (∀ j, j < n → ∃ h, f.fileHandlers (k + j) = some h ∧
        h.pos + f.byteCounter (k + j) ≤ h.data.length) →
      (∀ j, j < n → FullReads env (k + j)) → FullWrites env f.blockSize →
      cleanPath (f.splitFolder ++ f.fileName) = cleanPath (pre ++ f.fileName) →
      (∀ x ∈ olds, Stored env f.fileName pre fs k 0 x.1 x.2) →
      ∃ f1 fs1 lps lbs,
        runWorkers env fuel n k f fs = some (f1, fs1, lps, lbs) ∧
          List.Forall₂ (List.Forall₂ (Stored env f.fileName pre fs1 (k + n) 0)) lps lbs ∧
          (∀ x ∈ olds, Stored env f.fileName pre fs1 (k + n) 0 x.1 x.2) := by
  intro n
  induction n with
  | zero =>
    intro k f fs olds _ _ _ _ _ _ holds
    exact ⟨f, fs, [], [], rfl, List.Forall₂.nil, holds⟩
  | succ n ih =>
    intro k f fs olds hB hfuel hhand hfull hwrite hfolder holds
    obtain ⟨h, hh, hfit⟩ := hhand 0 (by omega)
    simp only [Nat.add_zero] at hh hfit
    have hfull0 : FullReads env k := by simpa using hfull 0 (by omega)
    obtain ⟨f1, fs1, ps1, bs1, heq, hall, hold1⟩ :=
      splitLoop_stored env k pre fuel f fs [] [] h olds hh hfit hB
        (by simpa using hfuel 0 (by omega)) hfull0 hwrite hfolder
        (fun x hx => stored_mono env _ _ _ _ _ _ _ _ _ (holds x hx) (Or.inr ⟨rfl, Nat.zero_le _⟩))
    obtain ⟨_, _, _, _, heq', hse, _⟩ :=
      splitLoop_any env k fuel f fs [] [] hB (by simpa using hfuel 0 (by omega))
    rw [heq] at heq'
    simp only [Option.some.injEq, Prod.mk.injEq] at heq'
    obtain ⟨hf1, _⟩ := heq'
    subst hf1
    have hbs : f1.blockSize = f.blockSize := hse.2.2.2.2.1
    have hfn : f1.fileName = f.fileName := hse.2.1
    have hsf : f1.splitFolder = f.splitFolder := hse.1
    have hframe : ∀ j, f1.byteCounter (k + 1 + j) = f.byteCounter (k + 1 + j) ∧
        f1.fileHandlers (k + 1 + j) = f.fileHandlers (k + 1 + j) := by
      intro j
      have := hse.2.2.2.2.2.2.2 (k + 1 + j) (by omega)
      exact ⟨this.1, this.2.2⟩
    obtain ⟨hlen1, hzip1⟩ := List.forall₂_iff_zip.mp hall
    obtain ⟨f2, fs2, lps, lbs, heq2, hall2, hold2⟩ :=
      ih (k + 1) f1 fs1 (olds ++ ps1.zip bs1) (by rw [hbs]; exact hB) (by
        intro j hj
        rw [(hframe j).1]
        have := hfuel (j + 1) (by omega)
        rwa [show k + (j + 1) = k + 1 + j by omega] at this) (by
        intro j hj
        rw [(hframe j).1, (hframe j).2]
        have := hhand (j + 1) (by omega)
        rwa [show k + (j + 1) = k + 1 + j by omega] at this) (by
        intro j hj
        have := hfull (j + 1) (by omega)
        rwa [show k + (j + 1) = k + 1 + j by omega] at this) (by rw [hbs]; exact hwrite)
        (by rw [hsf, hfn]; exact hfolder) (by
        intro x hx
        rw [hfn]
        rcases List.mem_append.mp hx with hx1 | hx1
        · exact stored_mono env _ _ _ _ _ _ _ _ _ (hold1 x hx1) (Or.inl (by omega))
        · exact stored_mono env _ _ _ _ _ _ _ _ _ (hzip1 hx1) (Or.inl (by omega)))
    rw [hfn] at hall2 hold2
    rw [show k + 1 + n = k + (n + 1) by omega] at hall2 hold2
    refine ⟨f2, fs2, ps1 :: lps, bs1 :: lbs, ?_, ?_, ?_⟩
    · simp only [runWorkers, split, heq, heq2, List.nil_append]
    · refine List.Forall₂.cons ?_ hall2
      refine List.forall₂_iff_zip.mpr ⟨hlen1, ?_⟩
      intro a b hab
      exact hold2 (a, b) (List.mem_append.mpr (Or.inr hab))
    · intro x hx
      exact hold2 x (by simp [hx])

theorem verifyLoop_stored (env : Env) (f : FileSplit) (fs : FS)
    (hread : ∀ q, env.readAllErr q = none) :
    ∀ (ps : List part) (bs : List (List Byte)) (content : List Byte),
      List.Forall₂ (fun p b => readFile fs p.fileName = some b) ps bs →
      verifyLoop env f fs ps content =
        if f.hash ≠ digest env (content ++ bs.flatten) then some "split verification failed"
        else none := by
  intro ps bs content h
  induction h generalizing content with
  | nil => simp [verifyLoop]
  | cons hab _ ih =>
    simp only [verifyLoop, readAll, hab, hread, List.flatten_cons]
    rw [ih]
    simp [List.append_assoc]

theorem numbered_forall₂ {β : Type} (R : part → β → Prop)
    (hR : ∀ p b o, R p b → R { p with order := o } b) :
    ∀ (ps : List part) (bs : List β) (order : Nat),
      List.Forall₂ R ps bs → List.Forall₂ R (numbered order ps) bs := by
  intro ps bs order h
  induction h generalizing order with
  | nil => simp [numbered]
  | cons hab _ ih =>
    simp only [numbered, List.enumFrom_cons, List.map_cons]
    exact List.Forall₂.cons (hR _ _ _ hab) (ih (order + 1))

/-! ## Order reconstruction -/

theorem cleanPath_append_suffix (x : String) (c : Char) (t : List Char) (hc : c ≠ '/') :
    (cleanPath (x ++ String.mk ('.' :: c :: t))).data = (cleanPath x).data ++ '.' :: c :: t := by
  simp only [cleanPath, String.data_append]
  exact stripDotSlash_append c t hc _ false _ rfl

/-- The key of a part file is never the key of a manifest file. -/
theorem partKey_ne_manifestKey (pre fileName : String) (w b : Nat) (d m : String) :
    cleanPath (pre ++ partFileName fileName w b d) ≠ cleanPath (m ++ ".manifest.json") := by
  intro h
  have e1 : pre ++ partFileName fileName w b d =
      (pre ++ fileName ++ "." ++ Itoa w ++ "." ++ Itoa b ++ "." ++ d) ++
        String.mk ('.' :: 'p' :: ['a', 'r', 't']) := by
    apply String.ext
    simp [partFileName]
  have e2 : m ++ ".manifest.json" =
      m ++ String.mk ('.' :: 'm' :: ".manifest.json".data.drop 2) := rfl
  have h1 := congrArg (fun s => s.data.getLast?) h
  simp only at h1
  rw [e1, e2, cleanPath_append_suffix _ _ _ (by decide),
    cleanPath_append_suffix _ _ _ (by decide)] at h1
  rw [List.getLast?_append, List.getLast?_append] at h1
  have a1 : ['.', 'p', 'a', 'r', 't'].getLast? = some 't' := rfl
  have a2 : ('.' :: 'm' :: List.drop 2 ".manifest.json".data).getLast? = some 'n' := by decide
  rw [a1, a2] at h1
  simp only [Option.or] at h1
  exact absurd h1 (by decide)

theorem readFile_writeManifest (env : Env) (f : FileSplit) (fs : FS) (pre fileName : String)
    (w b : Nat) (d : String) :
    readFile (writeManifest env f fs).1 (pre ++ partFileName fileName w b d) =
      readFile fs (pre ++ partFileName fileName w b d) := by
  unfold writeManifest
  cases env.manifestErr with
  | some e => rfl
  | none =>
    simp only
    apply readFile_writeFile_ne
    exact fun h => partKey_ne_manifestKey pre fileName w b d _ h.symm

theorem readParts_flatten (fs : FS) (folder : String) :
    ∀ (ps : List part) (bs : List (List Byte)),
      List.Forall₂ (fun p b => readFile fs (folder ++ p.fileName) = some b) ps bs →
      readParts fs folder ps = some bs.flatten := by
  intro ps bs h
  induction h with
  | nil => rfl
  | cons hab _ ih => simp [readParts, hab, ih]

theorem numbered_cons (order : Nat) (a : part) (ps : List part) :
    numbered order (a :: ps) = { a with order := order } :: numbered (order + 1) ps := by
  simp [numbered, List.enumFrom_cons]

theorem numbered_order_ge (ps : List part) :
    ∀ (order : Nat) (q : part), q ∈ numbered order ps → order ≤ q.order := by
  induction ps with
  | nil => intro order q hq; simp [numbered] at hq
  | cons a ps ih =>
    intro order q hq
    rw [numbered_cons] at hq
    rcases List.mem_cons.mp hq with h | h
    · subst h
      exact Nat.le_refl _
    · exact Nat.le_of_succ_le (ih (order + 1) q h)

/-- Part entries numbered in list order are in ascending order field. -/
theorem byOrder_numbered (ps : List part) :
    ∀ order : Nat, byOrder (numbered order ps) = numbered order ps := by
  intro order
  apply List.Sorted.insertionSort_eq
  induction ps generalizing order with
  | nil => simp [numbered]
  | cons a ps ih =>
    rw [numbered_cons]
    refine List.Pairwise.cons ?_ (ih (order + 1))
    intro q hq
    exact Nat.le_of_succ_le (numbered_order_ge ps (order + 1) q hq)

/-- The claim C1 without its amendment fails: on the file 1, 2, 3, 4, 5 with two workers and
blocks of two bytes every read fills its block; when no part file can be created `Split`
returns no error and leaves three parts without a file name, whose contents cannot be read,
and when the source cannot be opened for the workers it returns the error and leaves no
part. -/
theorem Split_order_reconstruction_counterexample :
    (match Split brokenWriteEnv 6 demoSplit demoFS with
      | some o =>
        some (o.err, o.fsplit.parts.map (fun p => (p.order, p.fileName)),
          readParts o.fs demoSplit.splitFolder (byOrder o.fsplit.parts))
      | none => none) = some (none, [(0, ""), (1, ""), (2, "")], none) ∧
    (match Split brokenOpenEnv 6 demoSplit demoFS with
      | some o =>
        some (o.err, o.fsplit.parts,
          readParts o.fs demoSplit.splitFolder (byOrder o.fsplit.parts))
      | none => none) = some (some "permission denied", [], some []) := by
  decide

/-- C1, as amended (order reconstruction): for every source, worker count of at least 1 and
positive block size, when the source is opened for every worker, every read fills the
requested block and every part file is written in full, `Split` on a freshly constructed
`FileSplit` returns, the parts it leaves in `fsplit.parts` carry the order fields 0, 1, 2, ...
in list order, and the contents of their part files in the split folder, taken in ascending
order field from the file system `Split` leaves behind, concatenate to the source; every part
entry carries the digest of the content of its part file. -/
theorem Split_order_reconstruction (env : Env) (fuel : Nat) (fs : FS) (src : List Byte)
    (f : FileSplit) (hW : 1 ≤ f.workers) (hB : 0 < f.blockSize) (hfresh : f.parts = [])
    (hsrc : readFile fs f.fileName = some src) (hsize : f.size = src.length)
    (hopen : ∀ w, w < f.workers → env.openErr w = none)
    (hfull : ∀ w, w < f.workers → FullReads env w) (hwrite : FullWrites env f.blockSize)
    (hfuel : src.length < fuel) :
    ∃ out, Split env fuel f fs = some out ∧
      (∀ (i : Nat) (p : part), out.fsplit.parts[i]? = some p → p.order = i) ∧
      readParts out.fs f.splitFolder (byOrder out.fsplit.parts) = some src ∧
      out.blocks.flatten = src ∧
      List.Forall₂
        (fun p b => p.hash = env.digest b ∧
          readFile out.fs (f.splitFolder ++ p.fileName) = some b)
        out.fsplit.parts out.blocks := by
  obtain ⟨f1, ha, hso, _, hslots⟩ := assignRanges_spec env fs src f hW hsrc hopen
  have hbs : f1.blockSize = f.blockSize := hso.2.2.2.2.1
  have hfn : f1.fileName = f.fileName := hso.2.1
  have hsf : f1.splitFolder = f.splitFolder := hso.1
  obtain ⟨hcle, hhand, f2, fs2, lps, lbs, hr, hflat, hso2, _⟩ :=
    runWorkers_source env fuel fs src f f1 hW hB hsize hso hslots hfull hfuel
  obtain ⟨out, hs, hfs, hblocks, _, hofs⟩ := Split_eq env fuel f f1 f2 fs fs2 lps lbs hW ha hr
  have hparts : out.fsplit.parts = numbered 0 lps.flatten := by
    rw [hfs]
    have : f2.parts = [] := by rw [hso2.2.2.2.2.2.2.1, hso.2.2.2.2.2.2.1, hfresh]
    simp [this]
  obtain ⟨f2', fs2', lps', lbs', hr', hst, _⟩ :=
    runWorkers_stored env fuel f.splitFolder f.workers 0 f1 fs [] (by rw [hbs]; exact hB)
      hcle hhand (by intro j hj; simpa using hfull j hj) (by rw [hbs]; exact hwrite)
      (by rw [hsf]) (by simp)
  rw [hr] at hr'
  simp only [Option.some.injEq, Prod.mk.injEq] at hr'
  obtain ⟨_, hfs2, hlps, hlbs⟩ := hr'
  subst hfs2 hlps hlbs
  rw [hfn] at hst
  have hkeep : ∀ (p : part) (b : List Byte),
      (p.hash = env.digest b ∧ readFile fs2 (f.splitFolder ++ p.fileName) = some b ∧
        ∃ w1 k1, p.fileName = partFileName f.fileName w1 k1 (env.digest b)) →
      p.hash = env.digest b ∧ readFile out.fs (f.splitFolder ++ p.fileName) = some b := by
    intro p b ⟨hh, hrd, w1, k1, hn⟩
    refine ⟨hh, ?_⟩
    rw [hofs]
    split
    · rw [hn, readFile_writeManifest, ← hn]
      exact hrd
    · exact hrd
  have hstored : List.Forall₂
      (fun p b => p.hash = env.digest b ∧
        readFile out.fs (f.splitFolder ++ p.fileName) = some b)
      out.fsplit.parts out.blocks := by
    rw [hparts, hblocks]
    apply numbered_forall₂ _ (fun p b o h => h)
    exact (List.rel_flatten hst).imp
      (fun p b h => hkeep p b ⟨h.1, h.2.1, h.2.2.imp (fun w1 h1 => h1.imp (fun k1 h2 => h2.1))⟩)
  refine ⟨out, hs, ?_, ?_, by rw [hblocks, hflat], hstored⟩
  · intro i p hp
    rw [hparts, numbered_getElem?] at hp
    cases hq : lps.flatten[i]? with
    | none => simp [hq] at hp
    | some q =>
      simp only [hq, Option.map_some', Option.some.injEq] at hp
      subst hp
      simp
  · have hbo : byOrder out.fsplit.parts = out.fsplit.parts := by
      rw [hparts]
      exact byOrder_numbered _ 0
    rw [hbo, readParts_flatten out.fs f.splitFolder _ _ (hstored.imp (fun p b h => h.2)),
      hblocks, hflat]

/-- The part files of two workers on the file 1, 2, 3, 4, 5, read back in ascending order
field, concatenate to it. -/
theorem Split_order_reconstruction_witness :
    ∃ out, Split idealEnv 6 demoSplit demoFS = some out ∧
      readParts out.fs demoSplit.splitFolder (byOrder out.fsplit.parts) =
        some [1, 2, 3, 4, 5] := by
  obtain ⟨out, hs, _, hb, _⟩ :=
    Split_order_reconstruction idealEnv 6 demoFS [1, 2, 3, 4, 5] demoSplit (by decide)
      (by decide) rfl (by decide) rfl (fun _ _ => rfl)
      (fun _ _ k len => ⟨Nat.le_refl len, rfl⟩) (fun _ _ => ⟨1000000000, by decide, rfl⟩)
      (by decide)
  exact ⟨out, hs, hb⟩

/-! ## Round trip -/

/-- Round trip in the current directory: for every source, worker count of at least 1
and positive block size, when the stored digest is the digest of the source, the split
folder names the current directory, and every open, read and write succeeds in full, every
part file read back by its recorded name holds the byte slice of its part, `verifySplit`
finds the stored digest, and `Split` returns no error. -/
theorem Split_roundtrip_current_folder (env : Env) (fuel : Nat) (fs : FS) (src : List Byte)
    (f : FileSplit) (hW : 1 ≤ f.workers) (hB : 0 < f.blockSize) (hfresh : f.parts = [])
    (hsrc : readFile fs f.fileName = some src) (hsize : f.size = src.length)
    (hhash : f.hash = env.digest src)
    (hfolder : cleanPath (f.splitFolder ++ f.fileName) = cleanPath f.fileName)
    (hopen : ∀ w, w < f.workers → env.openErr w = none)
    (hfull : ∀ w, w < f.workers → FullReads env w) (hwrite : FullWrites env f.blockSize)
    (hread : ∀ q, env.readAllErr q = none) (hfuel : src.length < fuel) :
    ∃ out fs1, Split env fuel f fs = some out ∧ out.err = none ∧
      out.blocks.flatten = src ∧ env.digest out.blocks.flatten = out.fsplit.hash ∧
      verifySplit env out.fsplit fs1 = none ∧
      out.fs = (writeManifest env out.fsplit fs1).1 ∧
      List.Forall₂ (fun p b => p.hash = env.digest b ∧ readFile fs1 p.fileName = some b)
        out.fsplit.parts out.blocks := by
  obtain ⟨f1, ha, hso, _, hslots⟩ := assignRanges_spec env fs src f hW hsrc hopen
  have hbs : f1.blockSize = f.blockSize := hso.2.2.2.2.1
  have hfn : f1.fileName = f.fileName := hso.2.1
  have hsf : f1.splitFolder = f.splitFolder := hso.1
  obtain ⟨hcle, hhand, f2, fs2, lps, lbs, hr, hflat, hso2, _⟩ :=
    runWorkers_source env fuel fs src f f1 hW hB hsize hso hslots hfull hfuel
  obtain ⟨f2', fs2', lps', lbs', hr', hst, _⟩ :=
    runWorkers_stored env fuel "" f.workers 0 f1 fs [] (by rw [hbs]; exact hB) hcle hhand
      (by intro j hj; simpa using hfull j hj) (by rw [hbs]; exact hwrite)
      (by rw [hsf, hfn]; exact hfolder) (by simp)
  rw [hr] at hr'
  simp only [Option.some.injEq, Prod.mk.injEq] at hr'
  obtain ⟨_, hfs2, hlps, hlbs⟩ := hr'
  subst hfs2 hlps hlbs
  obtain ⟨out, hs, hfs, hblocks, herr, hofs⟩ :=
    Split_eq env fuel f f1 f2 fs fs2 lps lbs hW ha hr
  have hparts : out.fsplit.parts = numbered 0 lps.flatten := by
    rw [hfs]
    have : f2.parts = [] := by rw [hso2.2.2.2.2.2.2.1, hso.2.2.2.2.2.2.1, hfresh]
    simp [this]
  have hh2 : out.fsplit.hash = env.digest src := by
    rw [hfs]
    show f2.hash = _
    rw [hso2.2.2.2.2.2.1, hso.2.2.2.2.2.1, hhash]
  have hstored : List.Forall₂
      (fun p b => p.hash = env.digest b ∧ readFile fs2 p.fileName = some b)
      out.fsplit.parts out.blocks := by
    rw [hparts, hblocks]
    apply numbered_forall₂ _ (fun p b o h => h)
    exact (List.rel_flatten hst).imp (fun p b h => ⟨h.1, h.2.1⟩)
  have hver : verifySplit env out.fsplit fs2 = none := by
    unfold verifySplit
    rw [verifyLoop_stored env out.fsplit fs2 hread _ _ [] (hstored.imp (fun p b h => h.2))]
    simp [hh2, hblocks, hflat, digest]
  have herr2 : out.err = none := by
    rw [herr, hver]
    simp
  refine ⟨out, fs2, hs, herr2, by rw [hblocks, hflat], by rw [hblocks, hflat, hh2], hver, ?_,
    hstored⟩
  rw [hofs, if_pos herr2]

/-- On a relative path, one that does not start with a slash, a dropped `./` before it makes
no difference. -/
theorem stripDotSlash_seen (l : List Char) (h : l.head? ≠ some '/') :
    stripDotSlash true l = stripDotSlash false l := by
  match l, h with
  | [], _ => rfl
  | [x], h =>
    have hx : x ≠ '/' := by simpa using h
    simp [stripDotSlash, hx]
  | x :: y :: rest, h =>
    have hx : x ≠ '/' := by simpa using h
    simp [stripDotSlash, hx]

theorem cleanPath_dotSlash (s : String) (h : s.data.head? ≠ some '/') :
    cleanPath ("./" ++ s) = cleanPath s := by
  apply String.ext
  have e : ("./" ++ s).data = '.' :: '/' :: s.data := rfl
  simp only [cleanPath, e]
  rw [← stripDotSlash_seen s.data h]
  cases hs : s.data with
  | nil => simp [stripDotSlash]
  | cons a t => simp [stripDotSlash]

/-- The round trip of the file 1, 2, 3, 4, 5 in the folder `./`. -/
theorem Split_roundtrip_current_folder_witness :
    ∃ out, Split idealEnv 6 { demoSplit with hash := sumDigest [1, 2, 3, 4, 5] } demoFS =
        some out ∧ out.err = none := by
  obtain ⟨out, _, hs, he, _⟩ :=
    Split_roundtrip_current_folder idealEnv 6 demoFS [1, 2, 3, 4, 5]
      { demoSplit with hash := sumDigest [1, 2, 3, 4, 5] } (by decide) (by decide) rfl
      (by decide) rfl rfl (cleanPath_dotSlash _ (by decide)) (fun _ _ => rfl)
      (fun _ _ k len => ⟨Nat.le_refl len, rfl⟩) (fun _ _ => ⟨1000000000, by decide, rfl⟩)
      (fun _ => rfl) (by decide)
  exact ⟨out, hs, he⟩

/-- Round trip from `New`: with integrity checking enabled, a relative file name and the
split folder left empty or set to `./`, when the per-worker slices can be made and every
open, read and write succeeds in full, `New` returns a `FileSplit` and `Split` on it returns
no error. -/
theorem New_Split_roundtrip (env : Env) (fuel : Nat) (fs : FS) (src : List Byte)
    (options : NewFileSplit) (hW : IsInt64 options.Workers) (hB : IsInt64 options.BlockSize)
    (hsrc : readFile fs options.FileName = some src)
    (hrel : options.FileName.data.head? ≠ some '/')
    (hskip : options.SkipCheckDigest = false)
    (hfolder : options.SplitFolder = "" ∨ options.SplitFolder = "./")
    (hmake : makeSlice env (if options.Workers > 1 then options.Workers.toNat else 1) = true)
    (hopen : ∀ w, env.openErr w = none) (hfull : ∀ w, FullReads env w)
    (hwrite : FullWrites env
      (if options.BlockSize > 1 then options.BlockSize.toNat else 524288))
    (hread : ∀ q, env.readAllErr q = none) (hfuel : src.length < fuel) :
    ∃ out, NewThenSplit env fuel fs options = .ok (some out) ∧ out.err = none ∧
      out.blocks.flatten = src := by
  obtain ⟨f, hnew, _, hb, hw1, hb2, hsf, hfn, hsz, hp, hh, _⟩ :=
    New_ok env fs options src hW hB hsrc (Or.inr (hread _)) hmake
  have hsf2 : f.splitFolder = "./" := by
    rw [hsf]
    rcases hfolder with h | h <;> simp [h]
  obtain ⟨out, _, hs, he, hflat, _⟩ :=
    Split_roundtrip_current_folder env fuel fs src f hw1 (by omega) hp (by rw [hfn]; exact hsrc)
      hsz (by rw [hh]; simp [hskip])
      (by rw [hsf2, hfn]; exact cleanPath_dotSlash _ hrel)
      (fun w _ => hopen w) (fun w _ => hfull w) (by rw [hb]; exact hwrite) hread hfuel
  exact ⟨out, by simp [NewThenSplit, hnew, hs], he, hflat⟩

/-- The round trip of the file 1, 2, 3, 4, 5 from `New` with an empty split folder. -/
theorem New_Split_roundtrip_witness :
    ∃ out, NewThenSplit idealEnv 6 demoFS { outFolderOptions with SplitFolder := "" } =
        .ok (some out) ∧ out.err = none ∧ out.blocks.flatten = [1, 2, 3, 4, 5] :=
  New_Split_roundtrip idealEnv 6 demoFS [1, 2, 3, 4, 5]
    { outFolderOptions with SplitFolder := "" } ⟨by decide, by decide⟩ ⟨by decide, by decide⟩
    (by decide) (by decide) rfl (Or.inl rfl) (by decide) (fun _ => rfl)
    (fun _ k len => ⟨Nat.le_refl len, rfl⟩) (fun _ _ => ⟨1000000000, by decide, rfl⟩)
    (fun _ => rfl) (by decide)

end Filesplitter
